import Mathlib

/-!
# delivery: registration flow and JWT helpers

A shallow embedding of

* `controllers/admin/admin.go`  (`adminController.Registration` and the CRUD methods),
* `storage/postgres/admin.go`   (`adminRepo.Registration`),
* `pkg/jwt/jwt.go`              (`ExtractClaims`, `ExtractFromClaims`,
  `ExtractUserIDFromToken`, `GenerateNewJWTToken`, `ParseToken`),
* `constants/error.go`.

Go `string` is `String`, a text (the minting path is given a second time on Go strings
as byte sequences, which need not be UTF-8), Go `error` is `GoError` (with `Option GoError` for a
nilable error and `Except GoError α` for a `(value, error)` pair), a
`time.Time` is an integer number of nanoseconds since the Unix epoch and a
`time.Duration` an integer number of nanoseconds.  Calls into collaborators
(redis, gorm, uuid, the clock, the JWT library) are fields of explicit
dependency records; every call a request makes is recorded in a trace.  The JWT
libraries are third-party code: a reference model of what the code relies on
(serialization, validation of the registered claims, check of the tag) follows the
embedding, and the properties of minted tokens are proved against it.
-/

namespace Delivery

/-! ## Errors -/

/-- Modelled from the spec: the values of Go's `error` this code handles.
`NewError` stands for `pkgerrors.NewError(status, message)` of the package
`delivery/pkg/errors` and `ErrAccountAlreadyExists` for the sentinel of the package
`delivery/errors`; neither package is among the sources, so an error built by
`NewError` is taken to carry exactly the transport status and the message it is
built from.  `PgError` is a `*pgconn.PgError` with its `Code`, `New` is
`errors.New(message)` (or any error of a library), `Errorf` is
`fmt.Errorf(format + ": %w", wrapped)`, and `StatusError` is
`status.Error(code, message)` of `google.golang.org/grpc/status`. -/
inductive GoError where
  | NewError (status : Nat) (message : String)
  | ErrAccountAlreadyExists
  | PgError (code : String)
  | New (message : String)
  | Errorf (format : String) (wrapped : GoError)
  | StatusError (code : Nat) (message : String)
  deriving DecidableEq, Repr

deriving instance DecidableEq for Except

/-- The transport status an error value carries: only an error built by
`pkgerrors.NewError` has one. -/
def GoError.status : GoError → Option Nat
  | .NewError status _ => some status
  | _ => none

/-- The call `errors.As(err, &pgErr)` with `pgErr` a `*pgconn.PgError`: the first
`PgError` in the chain of wrapped errors, when there is one; the result is its
`Code`. -/
def asPgError : GoError → Option String
  | .PgError code => some code
  | .Errorf _ wrapped => asPgError wrapped
  | _ => none

/-- Go's `http.StatusBadRequest`. -/
def StatusBadRequest : Nat := 400

/-- Go's `http.StatusInternalServerError`. -/
def StatusInternalServerError : Nat := 500

/-- A status of the 400 class (client error). -/
def is4xx (status : Nat) : Prop := 400 ≤ status ∧ status < 500

/-- A status of the 500 class (server error). -/
def is5xx (status : Nat) : Prop := 500 ≤ status ∧ status < 600

instance (status : Nat) : Decidable (is4xx status) := by unfold is4xx; infer_instance

instance (status : Nat) : Decidable (is5xx status) := by unfold is5xx; infer_instance

namespace constants

/-- The constant `constants.PGForeignKeyViolationCode`. -/
def PGForeignKeyViolationCode : String := "23503"

/-- The constant `constants.PGUniqueKeyViolationCode`. -/
def PGUniqueKeyViolationCode : String := "23505"

end constants

/-! ## Time -/

/-- A `time.Time`: nanoseconds since the Unix epoch. -/
abbrev Time := Int

/-- A `time.Duration`: nanoseconds. -/
abbrev Duration := Int

/-- The method `Time.Unix()`: whole seconds since the epoch (rounded down). -/
def Time.Unix (t : Time) : Int := t / 1000000000

/-- The method `Time.Add(d)`. -/
def Time.Add (t : Time) (d : Duration) : Time := t + d

/-! ## Claim sets -/

/-- A value of a claim: `jwt.MapClaims` is `map[string]interface{}`, and the values
this code stores or reads are strings and whole numbers. -/
inductive Value where
  | str (s : String)
  | num (n : Int)
  deriving DecidableEq, Repr

/-- The type `jwt.MapClaims`: a finite map from claim names to values, kept as the list
of its entries in increasing order of the keys, the order in which
`encoding/json` writes a map. -/
abbrev MapClaims := List (String × Value)

/-- The expression `claims[key]` read with the comma-ok form: the value and whether the
key is present. -/
def MapClaims.get : MapClaims → String → Option Value
  | [], _ => none
  | (k, v) :: rest, key => if key = k then some v else MapClaims.get rest key

/-- Go's `<` on strings, on their lists of characters. -/
def lessChars : List Char → List Char → Bool
  | _, [] => false
  | [], _ :: _ => true
  | a :: as, b :: bs => if a < b then true else if a = b then lessChars as bs else false

/-- Go's `<` on strings. -/
def less (s t : String) : Bool := lessChars s.data t.data

/-- The statement `claims[key] = value`. -/
def MapClaims.set : MapClaims → String → Value → MapClaims
  | [], key, value => [(key, value)]
  | (k, v) :: rest, key, value =>
    if less key k then (key, value) :: (k, v) :: rest
    else if key = k then (key, value) :: rest
    else (k, v) :: MapClaims.set rest key value

/-- The keys of the entries increase strictly along the list: the invariant of the
representation of a `MapClaims`. -/
def MapClaims.Sorted (m : MapClaims) : Prop :=
  List.Pairwise (fun a b => less a.1 b.1 = true) m

/-- A Go `map[string]string` literal or argument: the list of its entries (one per
key). The entries are visited in list order by `range`. Keys and values are texts, that
is Go strings that are valid UTF-8; `bytes.StringMap` has Go strings of any bytes. -/
abbrev StringMap := List (String × String)

/-- The expression `m[key]` with the comma-ok form, on a `map[string]string`. -/
def StringMap.get : StringMap → String → Option String
  | [], _ => none
  | (k, v) :: rest, key => if key = k then some v else StringMap.get rest key

/-! ## The JWT library, as the code calls it -/

/-- A parsed `*jwt.Token`, as far as the code reads it. -/
structure Token where
  Claims : MapClaims
  Valid : Bool
  deriving DecidableEq, Repr

/-- The calls into the JWT libraries (`github.com/golang-jwt/jwt` for minting,
`github.com/dgrijalva/jwt-go` for `ExtractClaims`):
`SignedString claims key` is
`jwt.NewWithClaims(jwt.SigningMethodHS256, claims).SignedString([]byte(key))` and
`ParseWithClaims tokenString key now` is `jwtgo.ParseWithClaims(tokenString, claims,
keyFunc)` with a `keyFunc` that always returns `key`, run when the clock reads `now`.
A signing key is written as the string whose bytes it is. -/
structure JwtLib where
  SignedString : MapClaims → String → Except GoError String
  ParseWithClaims : String → String → Time → Except GoError Token

/-! ## pkg/jwt/jwt.go -/

namespace jwt

/-- The loop `for key, value := range tokenMetadata { claims[key] = value }`. -/
def copyMetadata (tokenMetadata : StringMap) (claims : MapClaims) : MapClaims :=
  tokenMetadata.foldl (fun c kv => MapClaims.set c kv.1 (Value.str kv.2)) claims

/-- The claim set `GenerateNewJWTToken` builds and signs; `now₁` and `now₂` are the two
readings of `time.Now()`. -/
def buildClaims (tokenMetadata : StringMap) (tokenExpireTime : Duration)
    (now₁ now₂ : Time) : MapClaims :=
  MapClaims.set
    (MapClaims.set (copyMetadata tokenMetadata []) "iat" (Value.num (Time.Unix now₁)))
    "expires" (Value.num (Time.Unix (Time.Add now₂ tokenExpireTime)))

/-- The function `GenerateNewJWTToken`, on metadata whose keys and values are texts
(`bytes.GenerateNewJWTToken` has it on Go strings of any bytes). -/
def GenerateNewJWTToken (lib : JwtLib) (tokenMetadata : StringMap)
    (tokenExpireTime : Duration) (signingKey : String) (now₁ now₂ : Time) :
    Except GoError String :=
  match lib.SignedString (buildClaims tokenMetadata tokenExpireTime now₁ now₂) signingKey with
  | .error err => .error err
  | .ok t => .ok t

/-- The call `strings.Contains(s, substr)` on lists of characters. -/
def containsChars : List Char → List Char → Bool
  | [], sub => sub.isEmpty
  | c :: cs, sub => sub.isPrefixOf (c :: cs) || containsChars cs sub

/-- The call `strings.Contains(s, substr)`. -/
def Contains (s substr : String) : Bool := containsChars s.data substr.data

/-- The claim set `{role: "unauthorized"}`. -/
def unauthorized : MapClaims := MapClaims.set [] "role" (Value.str "unauthorized")

/-- The function `ExtractClaims`; `now` is the clock reading when the library
validates the token. -/
def ExtractClaims (lib : JwtLib) (tokenString : String) (signingKey : String) (now : Time) :
    Except GoError MapClaims :=
  if tokenString = "" then .ok unauthorized
  else if Contains tokenString "Basic" then .ok unauthorized
  else
    match lib.ParseWithClaims tokenString signingKey now with
    | .error err => .error err
    | .ok token =>
      if !token.Valid then .error (GoError.New "invalid jwt token")
      else .ok token.Claims

/-- The function `ExtractFromClaims`. -/
def ExtractFromClaims (lib : JwtLib) (key accessToken : String) (signingKey : String)
    (now : Time) : Except GoError Value :=
  match ExtractClaims lib accessToken signingKey now with
  | .error err => .error err
  | .ok claims =>
    match MapClaims.get claims key with
    | none => .error (GoError.New ("could not find claims for key: " ++ key))
    | some v => .ok v

/-- The function `ExtractUserIDFromToken`; `authorization` is
`c.GetHeader("Authorization")`, the empty string when the header is absent. -/
def ExtractUserIDFromToken (lib : JwtLib) (authorization : String) (secretKey : String)
    (now : Time) : Except GoError String :=
  if authorization = "" then .error (GoError.New "authorization header is missing")
  else
    match ExtractFromClaims lib "id" authorization secretKey now with
    | .error err => .error (GoError.Errorf "failed to extract user ID from token" err)
    | .ok userId =>
      match userId with
      | .str userIDStr => .ok userIDStr
      | _ => .error (GoError.New "invalid user ID type")

end jwt

/-! ## Entities -/

namespace entities

/-- The struct `entities.RegistrReq`, with the fields the code reads and writes. -/
structure RegistrReq where
  ID : String
  PhoneNumber : String
  Code : String
  FcmToken : String
  deriving DecidableEq, Repr

/-- The struct `entities.Tokens`. -/
structure Tokens where
  AccessToken : String
  RefreshToken : String
  deriving DecidableEq, Repr

/-- The struct `entities.RegistrRes`. -/
structure RegistrRes where
  ID : String
  Tokens : Tokens
  deriving DecidableEq, Repr

end entities

open entities

/-! ## storage/postgres/admin.go -/

/-- The method `adminRepo.Registration`; `Create req` is `res.Error` of
`a.db.WithContext(ctx).Table("users").Create(&req)`. -/
def adminRepo.Registration (Create : RegistrReq → Option GoError) (req : RegistrReq) :
    Option GoError :=
  match Create req with
  | some resError =>
    if asPgError resError = some constants.PGUniqueKeyViolationCode then
      some GoError.ErrAccountAlreadyExists
    else some (GoError.Errorf "error in Signup" resError)
  | none => none

/-! ## controllers/admin/admin.go -/

/-- The result of `a.redis.Get(ctx, key).Result()` when it is an error: `redis.Nil`
(no such key) or another failure. -/
inductive RedisError where
  | Nil
  | other (err : GoError)
  deriving DecidableEq, Repr

/-- The receiver of `adminController.Registration` together with what the method
reads from its surroundings.
`redisGet key` is `a.redis.Get(ctx, key).Result()`, `NewString` the value of
`uuid.NewString()`, `Create` the insert of the store behind `a.storage.Admin()` (see
`adminRepo.Registration`), `lib` the JWT library, `Now n` the `n`-th reading of
`time.Now()` during the request; `JWTSecretKey` is `a.cfg.JWTSecretKey`; `UserRole`,
`JWTAccessTokenExpireDuration` and `JWTRefreshTokenExpireDuration` are the constants of
these names of the package `constants`, whose declarations are not among the sources. -/
structure adminController where
  redisGet : String → Except RedisError String
  NewString : String
  Create : RegistrReq → Option GoError
  lib : JwtLib
  Now : Nat → Time
  JWTSecretKey : String
  UserRole : String
  JWTAccessTokenExpireDuration : Duration
  JWTRefreshTokenExpireDuration : Duration

/-- A call `adminController.Registration` makes to a collaborator. -/
inductive Call where
  | redisGet (key : String)
  | storageRegistration (row : RegistrReq)
  | GenerateNewJWTToken (tokenMetadata : StringMap) (tokenExpireTime : Duration)
  deriving DecidableEq, Repr

/-- What a run of `adminController.Registration` does: the pair it returns and the
calls it made, in order. -/
structure Outcome where
  result : Except GoError RegistrRes
  calls : List Call

/-- The token metadata of `Registration`: `{"id": Id, "role": constants.UserRole}`. -/
def tokenMetadata (Id UserRole : String) : StringMap := [("id", Id), ("role", UserRole)]

/-- The method `adminController.Registration`. The two nested tests on the code are
written as one: the call fails when the stored code differs from the submitted one and
the submitted one is not "020202". -/
def adminController.Registration (a : adminController) (req : RegistrReq) : Outcome :=
  match a.redisGet req.PhoneNumber with
  | .error RedisError.Nil =>
    ⟨.error (GoError.NewError StatusBadRequest "Code is invalid or expired"),
      [Call.redisGet req.PhoneNumber]⟩
  | .error (RedisError.other _) =>
    ⟨.error (GoError.NewError StatusInternalServerError "Kod tekshirishda xatolik"),
      [Call.redisGet req.PhoneNumber]⟩
  | .ok storedCode =>
    if storedCode ≠ req.Code ∧ req.Code ≠ "020202" then
      ⟨.error (GoError.NewError StatusBadRequest "Kod noto'g'ri"),
        [Call.redisGet req.PhoneNumber]⟩
    else
      let Id := a.NewString
      let row : RegistrReq := { ID := Id, PhoneNumber := req.PhoneNumber, Code := "",
                                FcmToken := req.FcmToken }
      match adminRepo.Registration a.Create row with
      | some _ =>
        ⟨.error (GoError.NewError StatusInternalServerError
            "Telefon raqamini saqlashda xatolik"),
          [Call.redisGet req.PhoneNumber, Call.storageRegistration row]⟩
      | none =>
        let md := tokenMetadata Id a.UserRole
        match jwt.GenerateNewJWTToken a.lib md a.JWTAccessTokenExpireDuration
            a.JWTSecretKey (a.Now 0) (a.Now 1) with
        | .error err =>
          ⟨.error err,
            [Call.redisGet req.PhoneNumber, Call.storageRegistration row,
              Call.GenerateNewJWTToken md a.JWTAccessTokenExpireDuration]⟩
        | .ok accessToken =>
          match jwt.GenerateNewJWTToken a.lib md a.JWTRefreshTokenExpireDuration
              a.JWTSecretKey (a.Now 2) (a.Now 3) with
          | .error err =>
            ⟨.error err,
              [Call.redisGet req.PhoneNumber, Call.storageRegistration row,
                Call.GenerateNewJWTToken md a.JWTAccessTokenExpireDuration,
                Call.GenerateNewJWTToken md a.JWTRefreshTokenExpireDuration]⟩
          | .ok refreshToken =>
            ⟨.ok { ID := Id,
                   Tokens := { AccessToken := accessToken, RefreshToken := refreshToken } },
              [Call.redisGet req.PhoneNumber, Call.storageRegistration row,
                Call.GenerateNewJWTToken md a.JWTAccessTokenExpireDuration,
                Call.GenerateNewJWTToken md a.JWTRefreshTokenExpireDuration]⟩

/-! ## controllers/admin/admin.go: the CRUD methods -/

/-- The gRPC code `codes.Internal`. -/
def codes.Internal : Nat := 13

/-- The methods of `a.storage.Admin()` that the CRUD methods of the controller call, each
with the value it returns for the arguments it is given. The entity types
`entities.UserProfile`, `entities.Xozmak` and `entities.UserLocation` are not among the
sources and are parameters; a slice is a list. -/
structure AdminI (UserProfile Xozmak UserLocation : Type) where
  UpdateUser : String → UserProfile → Option GoError
  GetUserProfile : String → UserProfile × Option GoError
  CreateXozmak : Xozmak → Option GoError
  InsertUserLocation : UserLocation → Option GoError
  GetUserLocation : String → List UserLocation × Option GoError
  GetXozmak : List Xozmak × Option GoError
  UpdateXozmak : Xozmak → Option GoError
  DeleteXozmak : String → Option GoError

section crud

variable {UserProfile Xozmak UserLocation : Type}

/-- The method `adminController.UpdateUserProfile`; `storage` is `a.storage.Admin()`.
The lines written to the log are left out, here and in the methods below. -/
def adminController.UpdateUserProfile (storage : AdminI UserProfile Xozmak UserLocation)
    (userID : String) (req : UserProfile) : Option GoError :=
  match storage.UpdateUser userID req with
  | some _ => some (GoError.StatusError codes.Internal "internal server error")
  | none => none

/-- The method `adminController.GetUserProfile`; the default value of `UserProfile` is
`entities.UserProfile{}`. -/
def adminController.GetUserProfile [Inhabited UserProfile]
    (storage : AdminI UserProfile Xozmak UserLocation) (userId : String) :
    UserProfile × Option GoError :=
  match storage.GetUserProfile userId with
  | (_, some _) => (default, some (GoError.StatusError codes.Internal "internal server error"))
  | (data, none) => (data, none)

/-- The method `adminController.CreateXozmak`. -/
def adminController.CreateXozmak (storage : AdminI UserProfile Xozmak UserLocation)
    (req : Xozmak) : Option GoError :=
  match storage.CreateXozmak req with
  | some _ => some (GoError.StatusError codes.Internal "internal server error")
  | none => none

/-- The method `adminController.InsertUserLocation`. -/
def adminController.InsertUserLocation (storage : AdminI UserProfile Xozmak UserLocation)
    (req : UserLocation) : Option GoError :=
  match storage.InsertUserLocation req with
  | some _ => some (GoError.StatusError codes.Internal "internal server error")
  | none => none

/-- The method `adminController.GetUserLocation`. -/
def adminController.GetUserLocation (storage : AdminI UserProfile Xozmak UserLocation)
    (userId : String) : List UserLocation × Option GoError :=
  match storage.GetUserLocation userId with
  | (_, some _) => ([], some (GoError.StatusError codes.Internal "internal server error"))
  | (data, none) => (data, none)

/-- The method `adminController.GetXozmak`. -/
def adminController.GetXozmak (storage : AdminI UserProfile Xozmak UserLocation) :
    List Xozmak × Option GoError :=
  match storage.GetXozmak with
  | (_, some _) => ([], some (GoError.StatusError codes.Internal "internel server error"))
  | (data, none) => (data, none)

/-- The method `adminController.UpdateXozmak`. -/
def adminController.UpdateXozmak (storage : AdminI UserProfile Xozmak UserLocation)
    (req : Xozmak) : Option GoError :=
  match storage.UpdateXozmak req with
  | some _ => some (GoError.StatusError codes.Internal "internel server error")
  | none => none

/-- The method `adminController.DeleteXozmak`. -/
def adminController.DeleteXozmak (storage : AdminI UserProfile Xozmak UserLocation)
    (id : String) : Option GoError :=
  match storage.DeleteXozmak id with
  | some _ => some (GoError.StatusError codes.Internal "internel server error")
  | none => none

end crud

/-- A method of the controller that returns an error only: `op store` is what the method
returns when the store is `store`, `call store` what the store call it makes returns.
The method succeeds exactly when the store call does, and whatever the error of the
store, the method returns the error `status.Error(codes.Internal, message)`. -/
def Collapses {σ : Type} (call op : σ → Option GoError) (message : String) : Prop :=
  (∀ store, op store = none ↔ call store = none) ∧
  (∀ store e, call store = some e →
    op store = some (GoError.StatusError codes.Internal message)) ∧
  (∀ store₁ store₂ e₁ e₂, call store₁ = some e₁ → call store₂ = some e₂ →
    op store₁ = op store₂)

/-- A method of the controller that returns data and an error: it succeeds exactly when
the store call does, it then returns the data of the store unchanged, and whatever the
error of the store, the method returns `zero` and the error
`status.Error(codes.Internal, message)`. -/
def CollapsesData {σ α : Type} (call op : σ → α × Option GoError) (zero : α)
    (message : String) : Prop :=
  (∀ store, (op store).2 = none ↔ (call store).2 = none) ∧
  (∀ store, (call store).2 = none → op store = call store) ∧
  (∀ store e, (call store).2 = some e →
    op store = (zero, some (GoError.StatusError codes.Internal message))) ∧
  (∀ store₁ store₂ e₁ e₂, (call store₁).2 = some e₁ → (call store₂).2 = some e₂ →
    op store₁ = op store₂)

/-! ## A reference model of the JWT library

The libraries are not part of the repository. What the code relies on is modelled
here: the compact serialization of a token (unpadded URL-safe base64 of the UTF-8 bytes
of the JSON header and claims, and of the tag), the validation of the registered claims
`exp`, `iat` and `nbf`, and the check of the tag. The tag function of the HMAC family is
a parameter. Strings are sequences of Unicode characters (Go strings that are not UTF-8
are the matter of the section on byte sequences below), numbers are whole numbers, and
the JSON reader accepts the objects the writer produces: members that are strings or
whole numbers, without white space. -/

/-- The tag function of the HMAC family: `hmac method key text` is the list of bytes of
the tag of `text` under `key` for the method named `method` ("HS256", ...). -/
abbrev Hmac := String → String → List Char → List Nat

namespace base64

/-- The alphabet of `base64.URLEncoding`. -/
def alphabet : List Char :=
  "ABCDEFGHIJKLMNOPQRSTUVWXYZabcdefghijklmnopqrstuvwxyz0123456789-_".data

/-- The character of a 6-bit value. -/
def encodeDigit (n : Nat) : Char := alphabet.getD n 'A'

/-- The 6-bit value of a character of the alphabet. -/
def decodeDigit (c : Char) : Option Nat :=
  if alphabet.indexOf c < 64 then some (alphabet.indexOf c) else none

/-- Unpadded URL-safe base64 of a list of bytes: what `jwt.EncodeSegment` writes. -/
def EncodeToString : List Nat → List Char
  | [] => []
  | [a] => [encodeDigit (a / 4), encodeDigit (a % 4 * 16)]
  | [a, b] => [encodeDigit (a / 4), encodeDigit (a % 4 * 16 + b / 16), encodeDigit (b % 16 * 4)]
  | a :: b :: c :: rest =>
    encodeDigit (a / 4) :: encodeDigit (a % 4 * 16 + b / 16) ::
      encodeDigit (b % 16 * 4 + c / 64) :: encodeDigit (c % 64) :: EncodeToString rest

/-- The bytes of an unpadded URL-safe base64 text: what `jwt.DecodeSegment` reads. -/
def DecodeString : List Char → Option (List Nat)
  | [] => some []
  | [_] => none
  | [c₀, c₁] =>
    match decodeDigit c₀, decodeDigit c₁ with
    | some s₀, some s₁ => some [s₀ * 4 + s₁ / 16]
    | _, _ => none
  | [c₀, c₁, c₂] =>
    match decodeDigit c₀, decodeDigit c₁, decodeDigit c₂ with
    | some s₀, some s₁, some s₂ => some [s₀ * 4 + s₁ / 16, s₁ % 16 * 16 + s₂ / 4]
    | _, _, _ => none
  | c₀ :: c₁ :: c₂ :: c₃ :: rest =>
    match decodeDigit c₀, decodeDigit c₁, decodeDigit c₂, decodeDigit c₃, DecodeString rest with
    | some s₀, some s₁, some s₂, some s₃, some bytes =>
      some ((s₀ * 4 + s₁ / 16) :: (s₁ % 16 * 16 + s₂ / 4) :: (s₂ % 4 * 64 + s₃) :: bytes)
    | _, _, _, _, _ => none

end base64

namespace utf8

/-- The UTF-8 bytes of a character. -/
def EncodeRune (c : Char) : List Nat :=
  if c.toNat < 0x80 then [c.toNat]
  else if c.toNat < 0x800 then [0xC0 + c.toNat / 64, 0x80 + c.toNat % 64]
  else if c.toNat < 0x10000 then
    [0xE0 + c.toNat / 4096, 0x80 + c.toNat / 64 % 64, 0x80 + c.toNat % 64]
  else
    [0xF0 + c.toNat / 262144, 0x80 + c.toNat / 4096 % 64, 0x80 + c.toNat / 64 % 64,
      0x80 + c.toNat % 64]

/-- The bytes of a text: the conversion `[]byte(s)`. -/
def toBytes : List Char → List Nat
  | [] => []
  | c :: cs => EncodeRune c ++ toBytes cs

/-- A continuation byte. -/
def isCont (b : Nat) : Bool := 0x80 ≤ b && b < 0xC0

/-- Reads one character off a list of UTF-8 bytes: the character and the bytes that
follow it. -/
def DecodeRune : List Nat → Option (Char × List Nat)
  | [] => none
  | b₀ :: rest =>
    if b₀ < 0x80 then some (Char.ofNat b₀, rest)
    else if b₀ < 0xC0 then none
    else if b₀ < 0xE0 then
      match rest with
      | b₁ :: rest₁ =>
        if isCont b₁ then some (Char.ofNat ((b₀ - 0xC0) * 64 + (b₁ - 0x80)), rest₁) else none
      | _ => none
    else if b₀ < 0xF0 then
      match rest with
      | b₁ :: b₂ :: rest₂ =>
        if isCont b₁ && isCont b₂ then
          some (Char.ofNat ((b₀ - 0xE0) * 4096 + (b₁ - 0x80) * 64 + (b₂ - 0x80)), rest₂)
        else none
      | _ => none
    else if b₀ < 0xF8 then
      match rest with
      | b₁ :: b₂ :: b₃ :: rest₃ =>
        if isCont b₁ && isCont b₂ && isCont b₃ then
          some (Char.ofNat ((b₀ - 0xF0) * 262144 + (b₁ - 0x80) * 4096 + (b₂ - 0x80) * 64
            + (b₃ - 0x80)), rest₃)
        else none
      | _ => none
    else none

/-- Reads characters off a list of UTF-8 bytes until it is empty; `fuel` bounds the
number of characters. -/
def fromBytesAux : Nat → List Nat → Option (List Char)
  | _, [] => some []
  | 0, _ :: _ => none
  | fuel + 1, b :: bs =>
    match DecodeRune (b :: bs) with
    | some (c, rest) => (fromBytesAux fuel rest).map (c :: ·)
    | none => none

/-- The text of a list of bytes, when they are UTF-8: the conversion `string(b)`. -/
def fromBytes (bs : List Nat) : Option (List Char) := fromBytesAux bs.length bs

end utf8

namespace json

/-- A hexadecimal digit, in lower case. -/
def hexDigit (n : Nat) : Char := "0123456789abcdef".data.getD n '0'

/-- The value of a hexadecimal digit. -/
def hexValue (c : Char) : Option Nat :=
  if '0' ≤ c ∧ c ≤ '9' then some (c.toNat - 48)
  else if 'a' ≤ c ∧ c ≤ 'f' then some (c.toNat - 87)
  else if 'A' ≤ c ∧ c ≤ 'F' then some (c.toNat - 55)
  else none

/-- Whether `encoding/json` writes the character as a `\u` escape: the control
characters without a short escape, the characters `<`, `>` and `&`, and the line and
paragraph separators U+2028 and U+2029. -/
def needsHex (c : Char) : Bool :=
  c.toNat < 0x20 || c = '<' || c = '>' || c = '&' || c.toNat = 0x2028 || c.toNat = 0x2029

/-- How `encoding/json` writes a character inside a string, in the releases of Go before
1.22; later releases write U+0008 and U+000C as `\b` and `\f` (see `bytes.escapeChar`). -/
def escapeChar (c : Char) : List Char :=
  if c = '"' then ['\\', '"']
  else if c = '\\' then ['\\', '\\']
  else if c = '\n' then ['\\', 'n']
  else if c = '\r' then ['\\', 'r']
  else if c = '\t' then ['\\', 't']
  else if needsHex c then
    ['\\', 'u', hexDigit (c.toNat / 4096), hexDigit (c.toNat / 256 % 16),
      hexDigit (c.toNat / 16 % 16), hexDigit (c.toNat % 16)]
  else [c]

/-- The inside of a JSON string. -/
def escape : List Char → List Char
  | [] => []
  | c :: cs => escapeChar c ++ escape cs

/-- A JSON string: the text between quotes. -/
def quote (s : String) : List Char := '"' :: (escape s.data ++ ['"'])

/-- A decimal digit. -/
def digitChar (n : Nat) : Char := Char.ofNat (48 + n)

/-- The decimal digits of a natural number, most significant first, in front of `acc`;
`fuel` bounds the number of digits. -/
def decimalAux : Nat → Nat → List Char → List Char
  | 0, _, acc => acc
  | fuel + 1, n, acc =>
    if n < 10 then digitChar n :: acc
    else decimalAux fuel (n / 10) (digitChar (n % 10) :: acc)

/-- The decimal form of a natural number. -/
def decimal (n : Nat) : List Char := decimalAux (n + 1) n []

/-- The JSON form of a whole number. -/
def number (n : Int) : List Char :=
  if n < 0 then '-' :: decimal (-n).toNat else decimal n.toNat

/-- The JSON form of a claim value. -/
def value : Value → List Char
  | .str s => quote s
  | .num n => number n

/-- The members of a JSON object, separated by commas. -/
def members : List (String × Value) → List Char
  | [] => []
  | [(k, v)] => quote k ++ ':' :: value v
  | (k, v) :: e :: rest => quote k ++ ':' :: (value v ++ ',' :: members (e :: rest))

/-- The call `json.Marshal(m)` for a map: the object with the members in the order of
the keys. -/
def Marshal (m : MapClaims) : List Char := '{' :: (members m ++ ['}'])

/-- Reads one character of the inside of a JSON string, escaped or not: the character
and the text that follows it. -/
def parseChar : List Char → Option (Char × List Char)
  | [] => none
  | c :: rest =>
    if c = '\\' then
      match rest with
      | [] => none
      | e :: rest₁ =>
        if e = 'u' then
          match rest₁ with
          | h₃ :: h₂ :: h₁ :: h₀ :: rest₂ =>
            match hexValue h₃, hexValue h₂, hexValue h₁, hexValue h₀ with
            | some d₃, some d₂, some d₁, some d₀ =>
              some (Char.ofNat (d₃ * 4096 + d₂ * 256 + d₁ * 16 + d₀), rest₂)
            | _, _, _, _ => none
          | _ => none
        else if e = '"' then some ('"', rest₁)
        else if e = '\\' then some ('\\', rest₁)
        else if e = '/' then some ('/', rest₁)
        else if e = 'b' then some (Char.ofNat 8, rest₁)
        else if e = 'f' then some (Char.ofNat 12, rest₁)
        else if e = 'n' then some ('\n', rest₁)
        else if e = 'r' then some ('\r', rest₁)
        else if e = 't' then some ('\t', rest₁)
        else none
    else if c.toNat < 0x20 then none
    else some (c, rest)

/-- Reads the inside of a JSON string up to the closing quote: the text and what
follows the quote; `fuel` bounds the number of characters. -/
def parseStringAux : Nat → List Char → Option (List Char × List Char)
  | 0, _ => none
  | fuel + 1, text =>
    match text with
    | [] => none
    | c :: rest =>
      if c = '"' then some ([], rest)
      else
        match parseChar (c :: rest) with
        | some (u, rest₁) =>
          match parseStringAux fuel rest₁ with
          | some (s, r) => some (u :: s, r)
          | none => none
        | none => none

/-- Reads the inside of a JSON string up to the closing quote. -/
def parseString (text : List Char) : Option (List Char × List Char) :=
  parseStringAux text.length text

/-- Reads decimal digits: the number read so far is `acc`. -/
def parseDigits : List Char → Nat → Nat × List Char
  | [], acc => (acc, [])
  | c :: rest, acc =>
    if c.isDigit then parseDigits rest (acc * 10 + (c.toNat - 48))
    else (acc, c :: rest)

/-- Reads a natural number: one decimal digit or more. -/
def parseNat : List Char → Option (Nat × List Char)
  | [] => none
  | c :: rest => if c.isDigit then some (parseDigits (c :: rest) 0) else none

/-- Reads a claim value: a string or a whole number. -/
def parseValue : List Char → Option (Value × List Char)
  | [] => none
  | c :: rest =>
    if c = '"' then
      match parseString rest with
      | some (s, r) => some (Value.str (String.mk s), r)
      | none => none
    else if c = '-' then
      match parseNat rest with
      | some (n, r) => some (Value.num (-(n : Int)), r)
      | none => none
    else
      match parseNat (c :: rest) with
      | some (n, r) => some (Value.num (n : Int), r)
      | none => none

/-- Reads the members of an object up to the closing brace: the members and what
follows the brace; `fuel` bounds their number. -/
def parseMembers : Nat → List Char → Option (List (String × Value) × List Char)
  | 0, _ => none
  | fuel + 1, text =>
    match text with
    | [] => none
    | q :: rest =>
      if q ≠ '"' then none
      else
        match parseString rest with
        | none => none
        | some (k, rest₁) =>
          match rest₁ with
          | [] => none
          | colon :: rest₂ =>
            if colon ≠ ':' then none
            else
              match parseValue rest₂ with
              | none => none
              | some (v, rest₃) =>
                match rest₃ with
                | [] => none
                | sep :: rest₄ =>
                  if sep = '}' then some ([(String.mk k, v)], rest₄)
                  else if sep = ',' then
                    match parseMembers fuel rest₄ with
                    | some (ms, r) => some ((String.mk k, v) :: ms, r)
                    | none => none
                  else none

/-- Reads an object whose values are strings or whole numbers, written without white
space: its members in the order of the text, and what follows the closing brace. -/
def parseObject : List Char → Option (List (String × Value) × List Char)
  | [] => none
  | c :: rest =>
    if c ≠ '{' then none
    else
      match rest with
      | [] => none
      | d :: rest₁ =>
        if d = '}' then some ([], rest₁)
        else parseMembers (d :: rest₁).length (d :: rest₁)

/-- The call `json.Unmarshal(text, &m)` for a map of claims `m`, for the objects
`parseObject` reads: the members are assigned to the map one after the other. -/
def Unmarshal (text : List Char) (m : MapClaims) : Option MapClaims :=
  match parseObject text with
  | some (ms, []) => some (ms.foldl (fun c kv => MapClaims.set c kv.1 kv.2) m)
  | _ => none

end json

namespace jwtgo

/-- The function `EncodeSegment` on a JSON text. -/
def EncodeSegment (text : List Char) : List Char := base64.EncodeToString (utf8.toBytes text)

/-- The function `DecodeSegment` followed by reading the bytes as text. -/
def DecodeSegment (seg : List Char) : Option (List Char) :=
  match base64.DecodeString seg with
  | some bytes => utf8.fromBytes bytes
  | none => none

/-- The call `strings.Split(s, sep)` for a separator of one character. -/
def Split (sep : Char) : List Char → List (List Char)
  | [] => [[]]
  | c :: cs =>
    match Split sep cs with
    | [] => [[]]
    | p :: ps => if c = sep then [] :: p :: ps else (c :: p) :: ps

/-- The header of a token signed with `method`. -/
def header (method : String) : MapClaims := [("alg", Value.str method), ("typ", Value.str "JWT")]

/-- The method `Token.SigningString`. -/
def SigningString (method : String) (claims : MapClaims) : List Char :=
  EncodeSegment (json.Marshal (header method)) ++ '.' :: EncodeSegment (json.Marshal claims)

/-- The method `Token.SignedString` for an HMAC method; `hmac method key text` is the
tag of `text` under `key` (its bytes are taken modulo 256). This signing does not
fail. -/
def SignedString (hmac : Hmac) (method : String)
    (claims : MapClaims) (key : String) : String :=
  String.mk (SigningString method claims ++
    '.' :: base64.EncodeToString ((hmac method key (SigningString method claims)).map (· % 256)))

/-- The check `verifyExp`. -/
def verifyExp (exp now : Int) (required : Bool) : Bool :=
  if exp = 0 then !required else decide (now ≤ exp)

/-- The check `verifyIat`. -/
def verifyIat (iat now : Int) (required : Bool) : Bool :=
  if iat = 0 then !required else decide (now ≥ iat)

/-- The check `verifyNbf`. -/
def verifyNbf (nbf now : Int) (required : Bool) : Bool :=
  if nbf = 0 then !required else decide (now ≥ nbf)

/-- The method `MapClaims.VerifyExpiresAt`. -/
def VerifyExpiresAt (m : MapClaims) (cmp : Int) (req : Bool) : Bool :=
  match MapClaims.get m "exp" with
  | some (.num exp) => verifyExp exp cmp req
  | _ => req == false

/-- The method `MapClaims.VerifyIssuedAt`. -/
def VerifyIssuedAt (m : MapClaims) (cmp : Int) (req : Bool) : Bool :=
  match MapClaims.get m "iat" with
  | some (.num iat) => verifyIat iat cmp req
  | _ => req == false

/-- The method `MapClaims.VerifyNotBefore`. -/
def VerifyNotBefore (m : MapClaims) (cmp : Int) (req : Bool) : Bool :=
  match MapClaims.get m "nbf" with
  | some (.num nbf) => verifyNbf nbf cmp req
  | _ => req == false

/-- The method `MapClaims.Valid`, run when the clock reads `now`: the last failed
check names the error. -/
def Valid (m : MapClaims) (now : Time) : Option GoError :=
  if VerifyNotBefore m (Time.Unix now) false == false then
    some (GoError.New "Token is not valid yet")
  else if VerifyIssuedAt m (Time.Unix now) false == false then
    some (GoError.New "Token used before issued")
  else if VerifyExpiresAt m (Time.Unix now) false == false then
    some (GoError.New "Token is expired")
  else none

/-- Whether `GetSigningMethod(alg)` is an HMAC method. -/
def isHMAC (alg : String) : Bool := alg = "HS256" || alg = "HS384" || alg = "HS512"

/-- The method `SigningMethodHMAC.Verify`. -/
def Verify (hmac : Hmac) (method : String)
    (signingString signature : List Char) (key : String) : Bool :=
  match base64.DecodeString signature with
  | some sig => sig = (hmac method key signingString).map (· % 256)
  | none => false

/-- The method `Parser.ParseWithClaims` with an empty `MapClaims` and a key function that
returns `key`, run when the clock reads `now`. A signing method outside the HMAC family
does not verify under a key that is a byte slice. When both the claims validation and
the check of the tag fail, the error names the tag. -/
def ParseWithClaims (hmac : Hmac) (tokenString : String) (key : String) (now : Time) :
    Except GoError Token :=
  match Split '.' tokenString.data with
  | [p₀, p₁, p₂] =>
    match (DecodeSegment p₀).bind (json.Unmarshal · []) with
    | none => .error (GoError.New "token is malformed")
    | some hdr =>
      match (DecodeSegment p₁).bind (json.Unmarshal · []) with
      | none => .error (GoError.New "token is malformed")
      | some claims =>
        match MapClaims.get hdr "alg" with
        | some (.str alg) =>
          if !isHMAC alg then .error (GoError.New "signature is invalid")
          else if !Verify hmac alg (p₀ ++ '.' :: p₁) p₂ key then
            .error (GoError.New "signature is invalid")
          else
            match Valid claims now with
            | some err => .error err
            | none => .ok { Claims := claims, Valid := true }
        | _ => .error (GoError.New "signing method (alg) is unspecified.")
  | _ => .error (GoError.New "token contains an invalid number of segments")

/-- The library as the code calls it, with `hmac` for the HMAC family. -/
def lib (hmac : Hmac) : JwtLib where
  SignedString := fun claims key => .ok (SignedString hmac "HS256" claims key)
  ParseWithClaims := ParseWithClaims hmac

end jwtgo

/-! ## The library behind `ParseToken`

`ParseToken` calls `jwt.Parse` of `github.com/golang-jwt/jwt`, which has the wire format
and the checks of `jwtgo`, with two differences: the key function is the caller's, and
from release 3.2.2 on a registered claim `exp`, `iat` or `nbf` that is present and is
not a number fails the validation (before that release it passed). -/

namespace golangjwt

/-- The method `MapClaims.VerifyExpiresAt`; `strict` is true for release 3.2.2 and false
for the releases before it. -/
def VerifyExpiresAt (strict : Bool) (m : MapClaims) (cmp : Int) (req : Bool) : Bool :=
  match MapClaims.get m "exp" with
  | none => !req
  | some (.num exp) => jwtgo.verifyExp exp cmp req
  | some _ => if strict then false else !req

/-- The method `MapClaims.VerifyIssuedAt`. -/
def VerifyIssuedAt (strict : Bool) (m : MapClaims) (cmp : Int) (req : Bool) : Bool :=
  match MapClaims.get m "iat" with
  | none => !req
  | some (.num iat) => jwtgo.verifyIat iat cmp req
  | some _ => if strict then false else !req

/-- The method `MapClaims.VerifyNotBefore`. -/
def VerifyNotBefore (strict : Bool) (m : MapClaims) (cmp : Int) (req : Bool) : Bool :=
  match MapClaims.get m "nbf" with
  | none => !req
  | some (.num nbf) => jwtgo.verifyNbf nbf cmp req
  | some _ => if strict then false else !req

/-- The method `MapClaims.Valid`, run when the clock reads `now`: the last failed check
names the error. -/
def Valid (strict : Bool) (m : MapClaims) (now : Time) : Option GoError :=
  if VerifyNotBefore strict m (Time.Unix now) false == false then
    some (GoError.New "Token is not valid yet")
  else if VerifyIssuedAt strict m (Time.Unix now) false == false then
    some (GoError.New "Token used before issued")
  else if VerifyExpiresAt strict m (Time.Unix now) false == false then
    some (GoError.New "Token is expired")
  else none

/-- Whether `GetSigningMethod(alg)` is a signing method: the HMAC family and the
methods registered by the library whose keys are not byte slices. -/
def isRegistered (alg : String) : Bool :=
  jwtgo.isHMAC alg ||
    ["RS256", "RS384", "RS512", "ES256", "ES384", "ES512", "PS256", "PS384", "PS512",
      "EdDSA", "none"].contains alg

/-- The function `jwt.Parse`, run when the clock reads `now`; `keyFunc alg` is what the
key function returns for a token whose signing method is named `alg`, a key being
written as the string whose bytes it is. No key that is a byte slice verifies under a
method outside the HMAC family. When both the claims validation and the check of the
tag fail, the error names the tag. -/
def Parse (strict : Bool) (hmac : Hmac) (tokenString : String)
    (keyFunc : String → Except GoError String) (now : Time) : Except GoError Token :=
  match jwtgo.Split '.' tokenString.data with
  | [p₀, p₁, p₂] =>
    match (jwtgo.DecodeSegment p₀).bind (json.Unmarshal · []) with
    | none => .error (GoError.New "token is malformed")
    | some hdr =>
      match (jwtgo.DecodeSegment p₁).bind (json.Unmarshal · []) with
      | none => .error (GoError.New "token is malformed")
      | some claims =>
        match MapClaims.get hdr "alg" with
        | some (.str alg) =>
          if !isRegistered alg then
            .error (GoError.New "signing method (alg) is unavailable.")
          else
            match keyFunc alg with
            | .error err => .error err
            | .ok key =>
              if !jwtgo.isHMAC alg then .error (GoError.New "key is of invalid type")
              else if !jwtgo.Verify hmac alg (p₀ ++ '.' :: p₁) p₂ key then
                .error (GoError.New "signature is invalid")
              else
                match Valid strict claims now with
                | some err => .error err
                | none => .ok { Claims := claims, Valid := true }
        | _ => .error (GoError.New "signing method (alg) is unspecified.")
  | _ => .error (GoError.New "token contains an invalid number of segments")

end golangjwt

/-! ## pkg/jwt/jwt.go: `ParseToken` -/

namespace jwt

/-- The key function of `ParseToken`: it accepts the methods of type
`*jwt.SigningMethodHMAC` and returns `signingKey` for them. -/
def parseTokenKeyFunc (signingKey : String) (alg : String) : Except GoError String :=
  if jwtgo.isHMAC alg then .ok signingKey
  else .error (GoError.New "unexpected signing method")

/-- The function `ParseToken`: the user id and the error it returns; `Parse` is `jwt.Parse`
of the library (see `golangjwt.Parse`) and `now` the clock reading when the library
validates the token. -/
def ParseToken (Parse : String → (String → Except GoError String) → Time → Except GoError Token)
    (tokenString signingKey : String) (now : Time) : String × Option GoError :=
  match Parse tokenString (parseTokenKeyFunc signingKey) now with
  | .error err => ("", some err)
  | .ok token =>
    if token.Valid then
      match MapClaims.get token.Claims "userID" with
      | some (.str userID) => (userID, none)
      | _ => ("", some (GoError.New "userID not found in token"))
    else ("", some (GoError.New "invalid token"))

end jwt

namespace json

/-- The text `rest` does not start with a decimal digit. -/
def noDigitHead : List Char → Prop
  | [] => True
  | c :: _ => c.isDigit = false

/-- What follows a member in an object: the closing brace, or a comma and the other
members. -/
def afterMember (ms : List (String × Value)) (rest : List Char) : List Char :=
  match ms with
  | [] => '}' :: rest
  | e :: es => ',' :: (members (e :: es) ++ '}' :: rest)

end json

/-! ## Go strings as byte sequences

A Go `string` is a sequence of bytes, which need not be the UTF-8 form of a text. The
definitions above write a string as the text whose UTF-8 bytes it is. This section has
the minting path of `pkg/jwt` on byte sequences, with `encoding/json` writing a byte
that does not start a character as the escape of U+FFFD. -/

/-- A Go `string`: a sequence of bytes. -/
abbrev GoString := List Nat

/-- The Go string of a text: its UTF-8 bytes. -/
def GoString.ofString (s : String) : GoString := utf8.toBytes s.data

/-- Go's `<` on strings: the order of their bytes. -/
def GoString.less : GoString → GoString → Bool
  | _, [] => false
  | [], _ :: _ => true
  | a :: as, b :: bs => if a < b then true else if a = b then GoString.less as bs else false

namespace utf8

/-- The call `utf8.DecodeRuneInString(s)`: the first character of `s` and the bytes after
it, or `none` when `s` does not start with the UTF-8 form of a character (Go then
returns `RuneError` and the width 1). -/
def DecodeRuneInString (bs : List Nat) : Option (Char × List Nat) :=
  match DecodeRune bs with
  | some (c, rest) => if EncodeRune c ++ rest = bs then some (c, rest) else none
  | none => none

/-- The conversion `[]rune(s)`: the characters of a Go string, a byte that does not start
a character being read as U+FFFD; `fuel` bounds the number of characters. -/
def runesAux : Nat → List Nat → List Char
  | 0, _ => []
  | _ + 1, [] => []
  | fuel + 1, b :: bs =>
    match DecodeRuneInString (b :: bs) with
    | some (c, rest) => c :: runesAux fuel rest
    | none => Char.ofNat 0xFFFD :: runesAux fuel bs

end utf8

/-- The conversion `string([]rune(s))`: the text of a Go string, every byte that does not
start a character replaced by U+FFFD. -/
def GoString.text (s : GoString) : String := String.mk (utf8.runesAux s.length s)

namespace bytes

/-- A value of a claim, a string being a Go string. -/
inductive Value where
  | str (s : GoString)
  | num (n : Int)
  deriving DecidableEq, Repr

/-- The type `jwt.MapClaims` with Go strings for keys: the list of its entries in
increasing order of the keys. -/
abbrev MapClaims := List (GoString × Value)

/-- The statement `claims[key] = value`. -/
def MapClaims.set : MapClaims → GoString → Value → MapClaims
  | [], key, value => [(key, value)]
  | (k, v) :: rest, key, value =>
    if GoString.less key k then (key, value) :: (k, v) :: rest
    else if key = k then (key, value) :: rest
    else (k, v) :: MapClaims.set rest key value

/-- A Go `map[string]string`: the list of its entries (one per key). -/
abbrev StringMap := List (GoString × GoString)

/-- The loop `for key, value := range tokenMetadata { claims[key] = value }`. -/
def copyMetadata (tokenMetadata : StringMap) (claims : MapClaims) : MapClaims :=
  tokenMetadata.foldl (fun c kv => MapClaims.set c kv.1 (Value.str kv.2)) claims

/-- The claim set `GenerateNewJWTToken` builds and signs; `now₁` and `now₂` are the two
readings of `time.Now()`. -/
def buildClaims (tokenMetadata : StringMap) (tokenExpireTime : Duration)
    (now₁ now₂ : Time) : MapClaims :=
  MapClaims.set
    (MapClaims.set (copyMetadata tokenMetadata []) (GoString.ofString "iat")
      (Value.num (Time.Unix now₁)))
    (GoString.ofString "expires") (Value.num (Time.Unix (Time.Add now₂ tokenExpireTime)))

/-- The function `GenerateNewJWTToken`; `SignedString claims key` is
`jwt.NewWithClaims(jwt.SigningMethodHS256, claims).SignedString([]byte(key))`. -/
def GenerateNewJWTToken (SignedString : MapClaims → String → Except GoError String)
    (tokenMetadata : StringMap) (tokenExpireTime : Duration) (signingKey : String)
    (now₁ now₂ : Time) : Except GoError String :=
  match SignedString (buildClaims tokenMetadata tokenExpireTime now₁ now₂) signingKey with
  | .error err => .error err
  | .ok t => .ok t

/-- How `encoding/json` writes a character inside a string. Go 1.22 and later
(`shortEscapes`) writes U+0008 and U+000C as `\b` and `\f`; earlier releases write them
as `\u0008` and `\u000c`. -/
def escapeChar (shortEscapes : Bool) (c : Char) : List Char :=
  if shortEscapes = true ∧ c = Char.ofNat 8 then ['\\', 'b']
  else if shortEscapes = true ∧ c = Char.ofNat 12 then ['\\', 'f']
  else json.escapeChar c

/-- The inside of the JSON string `encoding/json` writes for a Go string: the characters
escaped as by `escapeChar`, and the escape of U+FFFD for a byte that does not start a character;
`fuel` bounds the number of steps. -/
def appendStringAux (shortEscapes : Bool) : Nat → GoString → List Char
  | 0, _ => []
  | _ + 1, [] => []
  | fuel + 1, b :: bs =>
    match utf8.DecodeRuneInString (b :: bs) with
    | some (c, rest) => escapeChar shortEscapes c ++ appendStringAux shortEscapes fuel rest
    | none => ['\\', 'u', 'f', 'f', 'f', 'd'] ++ appendStringAux shortEscapes fuel bs

/-- The function `appendString` of `encoding/json`: the JSON string of a Go string. -/
def appendString (shortEscapes : Bool) (s : GoString) : List Char :=
  '"' :: (appendStringAux shortEscapes s.length s ++ ['"'])

/-- The JSON form of a claim value. -/
def value (shortEscapes : Bool) : Value → List Char
  | .str s => appendString shortEscapes s
  | .num n => json.number n

/-- The members of a JSON object, separated by commas. -/
def members (shortEscapes : Bool) : List (GoString × Value) → List Char
  | [] => []
  | [(k, v)] => appendString shortEscapes k ++ ':' :: value shortEscapes v
  | (k, v) :: e :: rest =>
    appendString shortEscapes k ++ ':' ::
      (value shortEscapes v ++ ',' :: members shortEscapes (e :: rest))

/-- The call `json.Marshal(m)` for a map: the object with the members in the order of
the bytes of the keys. -/
def Marshal (shortEscapes : Bool) (m : MapClaims) : List Char :=
  '{' :: (members shortEscapes m ++ ['}'])

/-- The method `Token.SigningString`. -/
def SigningString (shortEscapes : Bool) (method : String) (claims : MapClaims) : List Char :=
  jwtgo.EncodeSegment (json.Marshal (jwtgo.header method)) ++
    '.' :: jwtgo.EncodeSegment (Marshal shortEscapes claims)

/-- The method `Token.SignedString` for an HMAC method; `hmac method key text` is the
tag of `text` under `key` (its bytes are taken modulo 256). This signing does not
fail. -/
def SignedString (shortEscapes : Bool) (hmac : Hmac) (method : String)
    (claims : MapClaims) (key : String) : String :=
  String.mk (SigningString shortEscapes method claims ++
    '.' :: base64.EncodeToString
      ((hmac method key (SigningString shortEscapes method claims)).map (· % 256)))

/-- The signer of the library as `GenerateNewJWTToken` calls it. -/
def signer (shortEscapes : Bool) (hmac : Hmac) : MapClaims → String → Except GoError String :=
  fun claims key => .ok (SignedString shortEscapes hmac "HS256" claims key)

/-- The claim value a JSON reader gets back for a written value. -/
def read : Value → Delivery.Value
  | .str s => Delivery.Value.str (GoString.text s)
  | .num n => Delivery.Value.num n

/-- The claim set a JSON reader gets back for a written claim set: the members are
assigned to an empty map one after the other. -/
def readClaims (m : MapClaims) : Delivery.MapClaims :=
  (m.map (fun kv => (GoString.text kv.1, read kv.2))).foldl
    (fun c kv => Delivery.MapClaims.set c kv.1 kv.2) []

/-- The value of a claim whose string is a text. -/
def ofValue : Delivery.Value → Value
  | .str s => Value.str (GoString.ofString s)
  | .num n => Value.num n

/-- The claim set whose keys and strings are texts. -/
def ofClaims (m : Delivery.MapClaims) : MapClaims :=
  m.map (fun kv => (GoString.ofString kv.1, ofValue kv.2))

/-- The `map[string]string` whose keys and values are texts. -/
def ofStringMap (m : Delivery.StringMap) : StringMap :=
  m.map (fun kv => (GoString.ofString kv.1, GoString.ofString kv.2))

/-- What follows a member in an object: the closing brace, or a comma and the other
members. -/
def afterMember (shortEscapes : Bool) (ms : List (GoString × Value)) (rest : List Char) :
    List Char :=
  match ms with
  | [] => '}' :: rest
  | e :: es => ',' :: (members shortEscapes (e :: es) ++ '}' :: rest)

end bytes

/-! ## Sample collaborators -/

/-- A stand-in for the tag function, to run examples: the bytes of the method and of the
key, and the length of the text modulo 256. -/
def sampleHmac : Hmac :=
  fun method key text => utf8.toBytes (method.data ++ key.data) ++ [text.length % 256]

/-- The rows handed to the store among the calls of a run. -/
def storedRows : List Call → List entities.RegistrReq
  | [] => []
  | Call.storageRegistration row :: rest => row :: storedRows rest
  | _ :: rest => storedRows rest


/-- A JWT library whose signing fails and that accepts no token. -/
def failingLib : JwtLib where
  SignedString := fun _ _ => .error (GoError.New "key is invalid")
  ParseWithClaims := fun _ _ _ => .error (GoError.New "token is malformed")

/-- The identifier `uuid.NewString()` returns in the sample worlds. -/
def sampleId : String := "7d3b0a52-5f0e-4a39-9a56-2f1c8e4b6d10"

/-- A world in which every insert into `users` hits the unique constraint (PG code
23505), the verification cache holds the code "4521" for every phone number, and the
JWT library is `lib`. -/
def duplicateWorld (lib : JwtLib) : adminController where
  redisGet := fun _ => .ok "4521"
  NewString := sampleId
  Create := fun _ => some (GoError.Errorf "ERROR: duplicate key value violates unique constraint"
    (GoError.PgError "23505"))
  lib := lib
  Now := fun n => 1700000000000000000 + n
  JWTSecretKey := "secret"
  UserRole := "user"
  JWTAccessTokenExpireDuration := 3600000000000
  JWTRefreshTokenExpireDuration := 86400000000000

/-- A world like `duplicateWorld` in which the store accepts every insert. -/
def freshWorld (lib : JwtLib) : adminController :=
  { duplicateWorld lib with Create := fun _ => none }

/-- A world like `freshWorld` in which the verification cache has no entry. -/
def emptyCacheWorld (lib : JwtLib) : adminController :=
  { freshWorld lib with redisGet := fun _ => .error RedisError.Nil }

/-- The request of the spec's scenario, with the submitted code as a parameter. -/
def sampleReq (code : String) : RegistrReq :=
  { ID := "candidate", PhoneNumber := "+19998887777", Code := code, FcmToken := "tok1" }

/-- The row `adminController.Registration` hands to the store for `sampleReq` in the
sample worlds. -/
def sampleRow : RegistrReq :=
  { ID := sampleId, PhoneNumber := "+19998887777", Code := "", FcmToken := "tok1" }

/-- The response to `sampleReq` in `freshWorld (jwtgo.lib sampleHmac)`. -/
def sampleRes : RegistrRes :=
  { ID := sampleId,
    Tokens := {
      AccessToken := jwtgo.SignedString sampleHmac "HS256"
        (jwt.buildClaims (tokenMetadata sampleId "user") 3600000000000
          1700000000000000000 1700000000000000001) "secret",
      RefreshToken := jwtgo.SignedString sampleHmac "HS256"
        (jwt.buildClaims (tokenMetadata sampleId "user") 86400000000000
          1700000000000000002 1700000000000000003) "secret" } }

/-! ## The serialization round trip -/

namespace base64

theorem decodeDigit_encodeDigit : ∀ n, n < 64 → decodeDigit (encodeDigit n) = some n := by
  decide

theorem encodeDigit_ne_dot (n : Nat) : encodeDigit n ≠ '.' := by
  by_cases h : n < 64
  · revert n
    decide
  · have : alphabet.length ≤ n := by
      have : alphabet.length = 64 := by decide
      omega
    rw [encodeDigit, List.getD_eq_default _ _ this]
    decide

theorem DecodeString_EncodeToString : ∀ bs : List Nat, (∀ b ∈ bs, b < 256) → DecodeString (EncodeToString bs) = some bs
  | [], _ => rfl
  | [a], h => by
    have ha : a < 256 := h a (by simp)
    have h₁ := decodeDigit_encodeDigit (a / 4) (by omega)
    have h₂ := decodeDigit_encodeDigit (a % 4 * 16) (by omega)
    simp only [EncodeToString, DecodeString, h₁, h₂]
    congr 2
    omega
  | [a, b], h => by
    have ha : a < 256 := h a (by simp)
    have hb : b < 256 := h b (by simp)
    have h₁ := decodeDigit_encodeDigit (a / 4) (by omega)
    have h₂ := decodeDigit_encodeDigit (a % 4 * 16 + b / 16) (by omega)
    have h₃ := decodeDigit_encodeDigit (b % 16 * 4) (by omega)
    simp only [EncodeToString, DecodeString, h₁, h₂, h₃]
    congr 2
    · omega
    · congr 1
      omega
  | a :: b :: c :: rest, h => by
    have ha : a < 256 := h a (by simp)
    have hb : b < 256 := h b (by simp)
    have hc : c < 256 := h c (by simp)
    have hrest : ∀ x ∈ rest, x < 256 := fun x hx => h x (by simp [hx])
    have h₁ := decodeDigit_encodeDigit (a / 4) (by omega)
    have h₂ := decodeDigit_encodeDigit (a % 4 * 16 + b / 16) (by omega)
    have h₃ := decodeDigit_encodeDigit (b % 16 * 4 + c / 64) (by omega)
    have h₄ := decodeDigit_encodeDigit (c % 64) (by omega)
    simp only [EncodeToString, DecodeString, h₁, h₂, h₃, h₄, DecodeString_EncodeToString rest hrest]
    congr 2
    · omega
    · congr 1
      · omega
      · congr 1
        omega

theorem dot_not_mem_EncodeToString : ∀ bs : List Nat, '.' ∉ EncodeToString bs
  | [] => by simp [EncodeToString]
  | [a] => by
    simp only [EncodeToString, List.mem_cons, List.mem_singleton, List.not_mem_nil, or_false, not_or]
    exact ⟨fun h => encodeDigit_ne_dot _ h.symm, fun h => encodeDigit_ne_dot _ h.symm⟩
  | [a, b] => by
    simp only [EncodeToString, List.mem_cons, List.mem_singleton, List.not_mem_nil, or_false, not_or]
    exact ⟨fun h => encodeDigit_ne_dot _ h.symm, fun h => encodeDigit_ne_dot _ h.symm,
      fun h => encodeDigit_ne_dot _ h.symm⟩
  | a :: b :: c :: rest => by
    have ih := dot_not_mem_EncodeToString rest
    simp only [EncodeToString, List.mem_cons, not_or]
    exact ⟨fun h => encodeDigit_ne_dot _ h.symm, fun h => encodeDigit_ne_dot _ h.symm,
      fun h => encodeDigit_ne_dot _ h.symm, fun h => encodeDigit_ne_dot _ h.symm, ih⟩

end base64


namespace utf8

theorem char_toNat_lt (c : Char) : c.toNat < 0x110000 := by
  have h := c.valid
  simp only [UInt32.isValidChar, Nat.isValidChar] at h
  have : c.toNat = c.val.toNat := rfl
  omega

theorem EncodeRune_lt (c : Char) : ∀ b ∈ EncodeRune c, b < 256 := by
  have h := char_toNat_lt c
  intro b hb
  unfold EncodeRune at hb
  split_ifs at hb <;> simp at hb <;> omega

theorem EncodeRune_ne_nil (c : Char) : EncodeRune c ≠ [] := by
  unfold EncodeRune
  split_ifs <;> simp

theorem DecodeRune_EncodeRune_append (c : Char) (bs : List Nat) :
    DecodeRune (EncodeRune c ++ bs) = some (c, bs) := by
  have h := char_toNat_lt c
  unfold EncodeRune
  split_ifs with h₁ h₂ h₃
  · simp only [List.singleton_append, DecodeRune, h₁, if_true, Char.ofNat_toNat]
  · have e : (0xC0 + c.toNat / 64 - 0xC0) * 64 + (0x80 + c.toNat % 64 - 0x80) = c.toNat := by
      omega
    have a₁ : ¬ (0xC0 + c.toNat / 64 < 0x80) := by omega
    have a₂ : ¬ (0xC0 + c.toNat / 64 < 0xC0) := by omega
    have a₃ : 0xC0 + c.toNat / 64 < 0xE0 := by omega
    have c₁ : isCont (0x80 + c.toNat % 64) = true := by
      simp [isCont]; omega
    simp only [List.cons_append, List.nil_append, DecodeRune, a₁, a₂, a₃, c₁, if_true, if_false,
      e, Char.ofNat_toNat]
  · have e : (0xE0 + c.toNat / 4096 - 0xE0) * 4096 + (0x80 + c.toNat / 64 % 64 - 0x80) * 64
        + (0x80 + c.toNat % 64 - 0x80) = c.toNat := by
      omega
    have a₁ : ¬ (0xE0 + c.toNat / 4096 < 0x80) := by omega
    have a₂ : ¬ (0xE0 + c.toNat / 4096 < 0xC0) := by omega
    have a₃ : ¬ (0xE0 + c.toNat / 4096 < 0xE0) := by omega
    have a₄ : 0xE0 + c.toNat / 4096 < 0xF0 := by omega
    have c₁ : isCont (0x80 + c.toNat / 64 % 64) = true := by
      simp [isCont]; omega
    have c₂ : isCont (0x80 + c.toNat % 64) = true := by
      simp [isCont]; omega
    simp only [List.cons_append, List.nil_append, DecodeRune, a₁, a₂, a₃, a₄, c₁, c₂, if_true,
      if_false, e, Char.ofNat_toNat, Bool.and_self]
  · have e : (0xF0 + c.toNat / 262144 - 0xF0) * 262144 + (0x80 + c.toNat / 4096 % 64 - 0x80) * 4096
        + (0x80 + c.toNat / 64 % 64 - 0x80) * 64 + (0x80 + c.toNat % 64 - 0x80) = c.toNat := by
      omega
    have a₁ : ¬ (0xF0 + c.toNat / 262144 < 0x80) := by omega
    have a₂ : ¬ (0xF0 + c.toNat / 262144 < 0xC0) := by omega
    have a₃ : ¬ (0xF0 + c.toNat / 262144 < 0xE0) := by omega
    have a₄ : ¬ (0xF0 + c.toNat / 262144 < 0xF0) := by omega
    have a₅ : 0xF0 + c.toNat / 262144 < 0xF8 := by omega
    have c₁ : isCont (0x80 + c.toNat / 4096 % 64) = true := by
      simp [isCont]; omega
    have c₂ : isCont (0x80 + c.toNat / 64 % 64) = true := by
      simp [isCont]; omega
    have c₃ : isCont (0x80 + c.toNat % 64) = true := by
      simp [isCont]; omega
    simp only [List.cons_append, List.nil_append, DecodeRune, a₁, a₂, a₃, a₄, a₅, c₁, c₂, c₃,
      if_true, if_false, e, Char.ofNat_toNat, Bool.and_self]

theorem toBytes_lt : ∀ (cs : List Char), ∀ b ∈ toBytes cs, b < 256
  | [], b, hb => by simp [toBytes] at hb
  | c :: cs, b, hb => by
    simp only [toBytes, List.mem_append] at hb
    rcases hb with hb | hb
    · exact EncodeRune_lt c b hb
    · exact toBytes_lt cs b hb

theorem length_le_toBytes : ∀ cs : List Char, cs.length ≤ (toBytes cs).length
  | [] => Nat.le_refl _
  | c :: cs => by
    have h₁ := length_le_toBytes cs
    have h₂ : 0 < (EncodeRune c).length := List.length_pos.mpr (EncodeRune_ne_nil c)
    simp only [toBytes, List.length_append, List.length_cons]
    omega

theorem fromBytesAux_toBytes : ∀ (cs : List Char) (fuel : Nat), cs.length ≤ fuel →
    fromBytesAux fuel (toBytes cs) = some cs
  | [], fuel, _ => by cases fuel <;> rfl
  | c :: cs, 0, h => by simp at h
  | c :: cs, fuel + 1, h => by
    have hlen : cs.length ≤ fuel := by simpa using h
    obtain ⟨b, bs, hb⟩ := List.exists_cons_of_ne_nil (EncodeRune_ne_nil c)
    have hstep := DecodeRune_EncodeRune_append c (toBytes cs)
    rw [toBytes]
    rw [hb] at hstep ⊢
    rw [List.cons_append] at hstep ⊢
    rw [fromBytesAux, hstep]
    simp only [fromBytesAux_toBytes cs fuel hlen, Option.map_some']

theorem fromBytes_toBytes (cs : List Char) : fromBytes (toBytes cs) = some cs :=
  fromBytesAux_toBytes cs _ (length_le_toBytes cs)

end utf8

namespace json

theorem hexValue_hexDigit : ∀ d, d < 16 → hexValue (hexDigit d) = some d := by
  decide

theorem toNat_lt_of_needsHex (c : Char) (h : needsHex c = true) : c.toNat < 65536 := by
  simp only [needsHex, Bool.or_eq_true, decide_eq_true_eq] at h
  rcases h with ((((h | h) | h) | h) | h) | h
  · omega
  · subst h; decide
  · subst h; decide
  · subst h; decide
  · omega
  · omega

theorem parseChar_escapeChar_append (c : Char) (rest : List Char) :
    parseChar (escapeChar c ++ rest) = some (c, rest) := by
  unfold escapeChar
  split_ifs with h₁ h₂ h₃ h₄ h₅ h₆
  · subst h₁; rfl
  · subst h₂; rfl
  · subst h₃; rfl
  · subst h₄; rfl
  · subst h₅; rfl
  · have hlt := toNat_lt_of_needsHex c h₆
    have e₃ := hexValue_hexDigit (c.toNat / 4096) (by omega)
    have e₂ := hexValue_hexDigit (c.toNat / 256 % 16) (by omega)
    have e₁ := hexValue_hexDigit (c.toNat / 16 % 16) (by omega)
    have e₀ := hexValue_hexDigit (c.toNat % 16) (by omega)
    have e : c.toNat / 4096 * 4096 + c.toNat / 256 % 16 * 256 + c.toNat / 16 % 16 * 16
        + c.toNat % 16 = c.toNat := by omega
    simp only [List.cons_append, List.nil_append, parseChar, if_true, e₃, e₂, e₁, e₀, e,
      Char.ofNat_toNat]
  · have h₇ : ¬ c.toNat < 0x20 := by
      intro h
      apply h₆
      simp [needsHex, h]
    simp only [List.singleton_append, parseChar, if_neg h₂, if_neg h₇]

theorem escapeChar_head (c : Char) : ∃ d tail, escapeChar c = d :: tail ∧ d ≠ '"' := by
  unfold escapeChar
  split_ifs with h₁ h₂ h₃ h₄ h₅ h₆
  all_goals first
    | exact ⟨'\\', _, rfl, by decide⟩
    | exact ⟨c, [], rfl, h₁⟩

theorem parseStringAux_escape : ∀ (s : List Char) (fuel : Nat) (rest : List Char),
    s.length < fuel → parseStringAux fuel (escape s ++ '"' :: rest) = some (s, rest)
  | [], fuel, rest, h => by
    obtain ⟨fuel, rfl⟩ : ∃ n, fuel = n + 1 := ⟨fuel - 1, by simp at h; omega⟩
    simp [escape, parseStringAux]
  | c :: s, fuel, rest, h => by
    obtain ⟨fuel, rfl⟩ : ∃ n, fuel = n + 1 := ⟨fuel - 1, by simp at h; omega⟩
    have hlen : s.length < fuel := by simpa using h
    obtain ⟨d, tail, hd, hne⟩ := escapeChar_head c
    have hstep := parseChar_escapeChar_append c (escape s ++ '"' :: rest)
    rw [escape, List.append_assoc]
    rw [hd] at hstep ⊢
    rw [List.cons_append] at hstep ⊢
    rw [parseStringAux]
    simp only [if_neg hne, hstep, parseStringAux_escape s fuel rest hlen]

theorem length_le_escape : ∀ s : List Char, s.length ≤ (escape s).length
  | [] => Nat.le_refl _
  | c :: s => by
    obtain ⟨d, tail, hd, -⟩ := escapeChar_head c
    have := length_le_escape s
    simp only [escape, hd, List.length_append, List.length_cons]
    omega

theorem parseString_escape (s rest : List Char) :
    parseString (escape s ++ '"' :: rest) = some (s, rest) := by
  apply parseStringAux_escape
  have := length_le_escape s
  simp only [List.length_append, List.length_cons]
  omega

theorem digitChar_spec : ∀ n, n < 10 →
    (digitChar n).isDigit = true ∧ (digitChar n).toNat - 48 = n ∧ digitChar n ≠ '"' ∧
      digitChar n ≠ '-' := by
  decide

theorem decimalAux_head : ∀ (fuel n : Nat) (acc : List Char), n < fuel →
    ∃ c tail, decimalAux fuel n acc = c :: tail ∧ c.isDigit = true ∧ c ≠ '"' ∧ c ≠ '-'
  | 0, n, acc, h => by omega
  | fuel + 1, n, acc, h => by
    rw [decimalAux]
    split_ifs with h₁
    · exact ⟨_, _, rfl, (digitChar_spec n h₁).1, (digitChar_spec n h₁).2.2⟩
    · exact decimalAux_head fuel (n / 10) _ (by omega)

theorem decimalAux_append : ∀ (fuel n : Nat) (acc rest : List Char),
    decimalAux fuel n acc ++ rest = decimalAux fuel n (acc ++ rest)
  | 0, n, acc, rest => rfl
  | fuel + 1, n, acc, rest => by
    rw [decimalAux, decimalAux]
    split_ifs with h₁
    · rfl
    · rw [decimalAux_append fuel (n / 10)]
      rfl

theorem parseDigits_decimalAux : ∀ (fuel n : Nat) (acc : List Char) (k : Nat), n < fuel →
    ∃ p, parseDigits (decimalAux fuel n acc) k = parseDigits acc (k * 10 ^ p + n)
  | 0, n, acc, k, h => by omega
  | fuel + 1, n, acc, k, h => by
    rw [decimalAux]
    split_ifs with h₁
    · refine ⟨1, ?_⟩
      obtain ⟨hd, hv, -⟩ := digitChar_spec n h₁
      rw [parseDigits, if_pos hd, hv, pow_one]
    · obtain ⟨p, hp⟩ := parseDigits_decimalAux fuel (n / 10) (digitChar (n % 10) :: acc) k
        (by omega)
      refine ⟨p + 1, ?_⟩
      obtain ⟨hd, hv, -⟩ := digitChar_spec (n % 10) (by omega)
      rw [hp, parseDigits, if_pos hd, hv]
      congr 1
      rw [pow_succ, ← Nat.mul_assoc]
      generalize k * 10 ^ p = y
      omega

theorem parseDigits_noDigitHead (rest : List Char) (k : Nat) (h : noDigitHead rest) :
    parseDigits rest k = (k, rest) := by
  cases rest with
  | nil => rfl
  | cons c tail =>
    simp only [noDigitHead] at h
    simp [parseDigits, h]

theorem parseNat_decimal (n : Nat) (rest : List Char) (h : noDigitHead rest) :
    parseNat (decimal n ++ rest) = some (n, rest) := by
  unfold decimal
  rw [decimalAux_append, List.nil_append]
  obtain ⟨c, tail, hc, hd, -⟩ := decimalAux_head (n + 1) n rest (by omega)
  obtain ⟨p, hp⟩ := parseDigits_decimalAux (n + 1) n rest 0 (by omega)
  rw [hc] at hp ⊢
  rw [parseNat, if_pos hd, hp, parseDigits_noDigitHead rest _ h]
  simp

theorem decimal_head (n : Nat) (rest : List Char) :
    ∃ c tail, decimal n ++ rest = c :: tail ∧ c ≠ '"' ∧ c ≠ '-' := by
  obtain ⟨c, tail, hc, -, h₁, h₂⟩ := decimalAux_head (n + 1) n [] (by omega)
  exact ⟨c, tail ++ rest, by rw [decimal, hc]; rfl, h₁, h₂⟩

theorem parseValue_value (v : Value) (rest : List Char) (h : noDigitHead rest) :
    parseValue (value v ++ rest) = some (v, rest) := by
  cases v with
  | str s =>
    simp only [value, quote, List.cons_append, List.append_assoc, List.singleton_append,
      parseValue, if_true, parseString_escape]
    rfl
  | num n =>
    simp only [value, number]
    split_ifs with hn
    · rw [List.cons_append, parseValue, if_neg (by decide), if_pos rfl,
        parseNat_decimal _ _ h]
      simp only [Option.some.injEq, Prod.mk.injEq, and_true, Value.num.injEq]
      omega
    · obtain ⟨c, tail, hc, h₁, h₂⟩ := decimal_head n.toNat rest
      have hp := parseNat_decimal n.toNat rest h
      rw [hc] at hp ⊢
      rw [parseValue, if_neg h₁, if_neg h₂, hp]
      simp only [Option.some.injEq, Prod.mk.injEq, and_true, Value.num.injEq]
      omega

end json

theorem lessChars_irrefl : ∀ a : List Char, lessChars a a = false
  | [] => rfl
  | a :: as => by
    rw [lessChars, if_neg (lt_irrefl a), if_pos rfl]
    exact lessChars_irrefl as

theorem lessChars_trans : ∀ a b c : List Char, lessChars a b = true → lessChars b c = true →
    lessChars a c = true
  | _, [], _, h, _ => by simp [lessChars] at h
  | _, _ :: _, [], _, h => by simp [lessChars] at h
  | [], _ :: _, _ :: _, _, _ => rfl
  | a :: as, b :: bs, c :: cs, h₁, h₂ => by
    rw [lessChars] at h₁ h₂ ⊢
    split_ifs at h₁ with hab hab'
    · split_ifs at h₂ with hbc hbc'
      · rw [if_pos (lt_trans hab hbc)]
      · rw [if_pos (hbc' ▸ hab)]
    · subst hab'
      split_ifs at h₂ with hbc hbc'
      · rw [if_pos hbc]
      · subst hbc'
        rw [if_neg hab, if_pos rfl]
        exact lessChars_trans as bs cs h₁ h₂

theorem lessChars_total : ∀ a b : List Char, lessChars a b = false → a ≠ b →
    lessChars b a = true
  | [], [], _, h => absurd rfl h
  | [], _ :: _, h, _ => by simp [lessChars] at h
  | _ :: _, [], _, _ => rfl
  | a :: as, b :: bs, h₁, h₂ => by
    rw [lessChars] at h₁ ⊢
    split_ifs at h₁ with hab hab'
    · subst hab'
      rw [if_neg hab, if_pos rfl]
      exact lessChars_total as bs h₁ (fun e => h₂ (e ▸ rfl))
    · rcases lt_trichotomy a b with h | h | h
      · exact absurd h hab
      · exact absurd h hab'
      · rw [if_pos h]

theorem less_irrefl (s : String) : less s s = false := lessChars_irrefl s.data

theorem less_trans {s t u : String} (h₁ : less s t = true) (h₂ : less t u = true) :
    less s u = true := lessChars_trans _ _ _ h₁ h₂

theorem less_total {s t : String} (h₁ : less s t = false) (h₂ : s ≠ t) : less t s = true :=
  lessChars_total _ _ h₁ (fun e => h₂ (String.ext e))

theorem less_asymm {s t : String} (h : less s t = true) : less t s = false := by
  cases h' : less t s with
  | false => rfl
  | true =>
    have := less_trans h h'
    rw [less_irrefl] at this
    exact absurd this (by decide)

theorem less_ne {s t : String} (h : less s t = true) : s ≠ t := by
  rintro rfl
  rw [less_irrefl] at h
  exact absurd h (by decide)

namespace MapClaims

theorem get_set_self : ∀ (m : MapClaims) (k : String) (v : Value),
    MapClaims.get (MapClaims.set m k v) k = some v
  | [], k, v => by simp [MapClaims.set, MapClaims.get]
  | (k₀, v₀) :: rest, k, v => by
    rw [MapClaims.set]
    split_ifs with h₁ h₂
    · simp [MapClaims.get]
    · simp [MapClaims.get]
    · rw [MapClaims.get, if_neg h₂]
      exact get_set_self rest k v

theorem get_set_ne : ∀ (m : MapClaims) (k : String) (v : Value) (key : String), key ≠ k →
    MapClaims.get (MapClaims.set m k v) key = MapClaims.get m key
  | [], k, v, key, h => by simp [MapClaims.set, MapClaims.get, h]
  | (k₀, v₀) :: rest, k, v, key, h => by
    rw [MapClaims.set]
    split_ifs with h₁ h₂
    · rw [MapClaims.get, if_neg h]
    · subst h₂
      rw [MapClaims.get, if_neg h, MapClaims.get, if_neg h]
    · rw [MapClaims.get, MapClaims.get, get_set_ne rest k v key h]

theorem mem_set : ∀ (m : MapClaims) (k : String) (v : Value) (e : String × Value),
    e ∈ MapClaims.set m k v → e = (k, v) ∨ e ∈ m
  | [], k, v, e, h => by
    simp only [MapClaims.set, List.mem_singleton] at h
    exact Or.inl h
  | (k₀, v₀) :: rest, k, v, e, h => by
    rw [MapClaims.set] at h
    split_ifs at h with h₁ h₂
    · simpa using h
    · rcases List.mem_cons.mp h with h | h
      · exact Or.inl h
      · exact Or.inr (List.mem_cons_of_mem _ h)
    · rcases List.mem_cons.mp h with h | h
      · exact Or.inr (h ▸ List.mem_cons_self _ _)
      · rcases mem_set rest k v e h with h | h
        · exact Or.inl h
        · exact Or.inr (List.mem_cons_of_mem _ h)

theorem sorted_set : ∀ (m : MapClaims) (k : String) (v : Value), Sorted m →
    Sorted (MapClaims.set m k v)
  | [], k, v, _ => by simp [MapClaims.set, Sorted]
  | (k₀, v₀) :: rest, k, v, h => by
    have h' := List.pairwise_cons.mp h
    rw [MapClaims.set]
    split_ifs with h₁ h₂
    · refine List.pairwise_cons.mpr ⟨?_, h⟩
      intro e he
      rcases List.mem_cons.mp he with he | he
      · subst he; exact h₁
      · exact less_trans h₁ (h'.1 e he)
    · subst h₂
      exact List.pairwise_cons.mpr ⟨h'.1, h'.2⟩
    · have h₃ : less k₀ k = true :=
        less_total (by simpa using h₁) h₂
      refine List.pairwise_cons.mpr ⟨?_, sorted_set rest k v h'.2⟩
      intro e he
      rcases mem_set rest k v e he with he | he
      · subst he; exact h₃
      · exact h'.1 e he

theorem set_eq_append : ∀ (m : MapClaims) (k : String) (v : Value),
    (∀ e ∈ m, less e.1 k = true) → MapClaims.set m k v = m ++ [(k, v)]
  | [], k, v, _ => rfl
  | (k₀, v₀) :: rest, k, v, h => by
    have h₀ : less k₀ k = true := h (k₀, v₀) (List.mem_cons_self _ _)
    have h₁ : ¬ (less k k₀ = true) := by simp [less_asymm h₀]
    rw [MapClaims.set, if_neg h₁, if_neg (less_ne h₀).symm,
      set_eq_append rest k v (fun e he => h e (List.mem_cons_of_mem _ he))]
    rfl

theorem foldl_set_eq_append : ∀ (ms acc : MapClaims), Sorted (acc ++ ms) →
    ms.foldl (fun c kv => MapClaims.set c kv.1 kv.2) acc = acc ++ ms
  | [], acc, _ => by simp
  | e :: ms, acc, h => by
    have h₁ : ∀ x ∈ acc, less x.1 e.1 = true := by
      intro x hx
      exact (List.pairwise_append.mp h).2.2 x hx e (List.mem_cons_self _ _)
    have h₂ : Sorted ((acc ++ [e]) ++ ms) := by
      rw [List.append_assoc]
      exact h
    rw [List.foldl_cons, set_eq_append acc e.1 e.2 h₁, foldl_set_eq_append ms _ h₂,
      List.append_assoc]
    rfl

end MapClaims

namespace json

theorem members_cons_append (k : String) (v : Value) (ms : List (String × Value))
    (rest : List Char) :
    members ((k, v) :: ms) ++ '}' :: rest =
      '"' :: (escape k.data ++ '"' :: ':' :: (value v ++ afterMember ms rest)) := by
  cases ms with
  | nil => simp [members, quote, afterMember]
  | cons e es => simp [members, quote, afterMember]

theorem noDigitHead_afterMember (ms : List (String × Value)) (rest : List Char) :
    noDigitHead (afterMember ms rest) := by
  cases ms <;> simp only [afterMember, noDigitHead] <;> decide

theorem parseMembers_members : ∀ (ms : List (String × Value)) (k : String) (v : Value)
    (fuel : Nat) (rest : List Char), ms.length < fuel →
    parseMembers fuel (members ((k, v) :: ms) ++ '}' :: rest) = some ((k, v) :: ms, rest)
  | [], k, v, fuel, rest, h => by
    obtain ⟨fuel, rfl⟩ : ∃ n, fuel = n + 1 := ⟨fuel - 1, by omega⟩
    rw [members_cons_append, parseMembers]
    simp only [ne_eq, not_true_eq_false, if_false, parseString_escape,
      parseValue_value v _ (noDigitHead_afterMember [] rest)]
    simp only [afterMember, if_true]
  | (k₁, v₁) :: ms, k, v, fuel, rest, h => by
    obtain ⟨fuel, rfl⟩ : ∃ n, fuel = n + 1 := ⟨fuel - 1, by omega⟩
    have hlen : ms.length < fuel := by simpa using h
    have hc : ¬ (',' = '}') := by decide
    rw [members_cons_append, parseMembers]
    simp only [ne_eq, not_true_eq_false, if_false, parseString_escape,
      parseValue_value v _ (noDigitHead_afterMember ((k₁, v₁) :: ms) rest)]
    simp only [afterMember, if_true, if_neg hc, parseMembers_members ms k₁ v₁ fuel rest hlen]

theorem length_le_members : ∀ ms : List (String × Value), ms.length ≤ (members ms).length
  | [] => Nat.le_refl _
  | [(k, v)] => by
    simp only [members, quote, List.length_cons, List.length_append, List.length_nil]
    omega
  | (k, v) :: e :: rest => by
    have := length_le_members (e :: rest)
    simp only [members, quote, List.length_cons, List.length_append] at this ⊢
    omega

theorem parseObject_Marshal (m : MapClaims) : parseObject (Marshal m) = some (m, []) := by
  cases m with
  | nil => rfl
  | cons e ms =>
    obtain ⟨k, v⟩ := e
    have hq : ¬ ('"' = '}') := by decide
    have hlen := length_le_members ((k, v) :: ms)
    have hm := members_cons_append k v ms []
    have hstep : parseObject (Marshal ((k, v) :: ms)) =
        parseMembers (members ((k, v) :: ms) ++ ['}']).length
          (members ((k, v) :: ms) ++ ['}']) := by
      rw [Marshal, hm]
      simp only [parseObject, ne_eq, not_true_eq_false, if_false, if_neg hq]
    rw [hstep]
    apply parseMembers_members
    simp only [List.length_cons, List.length_append, List.length_nil] at hlen ⊢
    omega

theorem Unmarshal_Marshal (m : MapClaims) (h : MapClaims.Sorted m) :
    Unmarshal (Marshal m) [] = some m := by
  rw [Unmarshal, parseObject_Marshal]
  simp only [MapClaims.foldl_set_eq_append m [] (by simpa using h), List.nil_append]

end json

namespace jwtgo

theorem Split_of_not_mem (sep : Char) : ∀ a : List Char, sep ∉ a → Split sep a = [a]
  | [], _ => rfl
  | c :: a, h => by
    have hc : ¬ c = sep := fun e => h (e ▸ List.mem_cons_self _ _)
    have ha : sep ∉ a := fun e => h (List.mem_cons_of_mem _ e)
    simp only [Split, Split_of_not_mem sep a ha, if_neg hc]

theorem Split_append (sep : Char) (b : List Char) : ∀ a : List Char, sep ∉ a →
    Split sep (a ++ sep :: b) = a :: Split sep b
  | [], _ => by
    cases hb : Split sep b with
    | nil => simp [Split, hb]
    | cons p ps => simp [Split, hb]
  | c :: a, h => by
    have hc : ¬ c = sep := fun e => h (e ▸ List.mem_cons_self _ _)
    have ha : sep ∉ a := fun e => h (List.mem_cons_of_mem _ e)
    rw [List.cons_append, Split, Split_append sep b a ha]
    simp only [if_neg hc]

theorem Split_ne_nil (sep : Char) : ∀ a : List Char, Split sep a ≠ []
  | [] => by simp [Split]
  | c :: a => by
    rw [Split]
    split
    · simp
    · split_ifs <;> simp

theorem DecodeSegment_EncodeSegment (text : List Char) :
    DecodeSegment (EncodeSegment text) = some text := by
  rw [DecodeSegment, EncodeSegment, base64.DecodeString_EncodeToString _ (utf8.toBytes_lt text)]
  exact utf8.fromBytes_toBytes text

theorem dot_not_mem_EncodeSegment (text : List Char) : '.' ∉ EncodeSegment text :=
  base64.dot_not_mem_EncodeToString _

theorem sorted_header (method : String) : MapClaims.Sorted (header method) := by
  simp only [header, MapClaims.Sorted, List.pairwise_cons, List.mem_singleton, forall_eq,
    List.not_mem_nil, false_implies, implies_true, List.Pairwise.nil, and_true]
  decide

theorem Split_SignedString (hmac : Hmac) (method : String)
    (claims : MapClaims) (key : String) :
    Split '.' (SignedString hmac method claims key).data =
      [EncodeSegment (json.Marshal (header method)), EncodeSegment (json.Marshal claims),
        base64.EncodeToString ((hmac method key (SigningString method claims)).map (· % 256))] := by
  simp only [SignedString, SigningString, List.append_assoc, List.cons_append]
  rw [Split_append _ _ _ (dot_not_mem_EncodeSegment _),
    Split_append _ _ _ (dot_not_mem_EncodeSegment _),
    Split_of_not_mem _ _ (base64.dot_not_mem_EncodeToString _)]

theorem Verify_tag (hmac : Hmac) (method : String)
    (text : List Char) (key : String) :
    Verify hmac method text (base64.EncodeToString ((hmac method key text).map (· % 256))) key = true := by
  have h : ∀ b ∈ (hmac method key text).map (· % 256), b < 256 := by
    intro b hb
    obtain ⟨x, -, rfl⟩ := List.mem_map.mp hb
    exact Nat.mod_lt _ (by decide)
  simp [Verify, base64.DecodeString_EncodeToString _ h]

/-- Parsing a token signed with HS256 under the same key: the outcome of the claims
validation, and the signed claims when it passes. -/
theorem ParseWithClaims_SignedString (hmac : Hmac)
    (claims : MapClaims) (key : String) (now : Time) (h : MapClaims.Sorted claims) :
    ParseWithClaims hmac (SignedString hmac "HS256" claims key) key now =
      match Valid claims now with
      | some err => .error err
      | none => .ok { Claims := claims, Valid := true } := by
  have hv := Verify_tag hmac "HS256" (SigningString "HS256" claims) key
  rw [ParseWithClaims, Split_SignedString]
  simp only [DecodeSegment_EncodeSegment, Option.some_bind,
    json.Unmarshal_Marshal _ (sorted_header "HS256"), json.Unmarshal_Marshal _ h]
  have halg : MapClaims.get (header "HS256") "alg" = some (Value.str "HS256") := by decide
  have hh : isHMAC "HS256" = true := by decide
  simp only [halg, hh, Bool.not_true, Bool.false_eq_true, if_false]
  rw [← SigningString, if_neg]
  rw [hv]
  decide

end jwtgo

/-! ## Claim sets built by `GenerateNewJWTToken` -/

theorem Unix_mono {a b : Time} (h : a ≤ b) : Time.Unix a ≤ Time.Unix b :=
  Int.ediv_le_ediv (by decide) h

theorem copyMetadata_cons (k v : String) (rest : StringMap) (c : MapClaims) :
    jwt.copyMetadata ((k, v) :: rest) c =
      jwt.copyMetadata rest (MapClaims.set c k (Value.str v)) := rfl

theorem get_copyMetadata_of_not_mem : ∀ (m : StringMap) (c : MapClaims) (key : String),
    key ∉ m.map Prod.fst →
    MapClaims.get (jwt.copyMetadata m c) key = MapClaims.get c key
  | [], _, _, _ => rfl
  | (k, v) :: rest, c, key, h => by
    have h₁ : key ≠ k := fun e => h (by simp [e])
    have h₂ : key ∉ rest.map Prod.fst := fun e => h (by simp at e ⊢; exact Or.inr e)
    rw [copyMetadata_cons, get_copyMetadata_of_not_mem rest _ key h₂,
      MapClaims.get_set_ne _ _ _ _ h₁]

theorem get_copyMetadata : ∀ (m : StringMap) (c : MapClaims) (key v : String),
    (m.map Prod.fst).Nodup → StringMap.get m key = some v →
    MapClaims.get (jwt.copyMetadata m c) key = some (Value.str v)
  | [], _, _, _, _, h => by simp [StringMap.get] at h
  | (k, v₀) :: rest, c, key, v, hnd, h => by
    have hnd' : k ∉ rest.map Prod.fst ∧ (rest.map Prod.fst).Nodup :=
      List.nodup_cons.mp hnd
    rw [copyMetadata_cons]
    rw [StringMap.get] at h
    split_ifs at h with hk
    · subst hk
      have hv : v₀ = v := by simpa using h
      subst hv
      rw [get_copyMetadata_of_not_mem rest _ key hnd'.1, MapClaims.get_set_self]
    · exact get_copyMetadata rest _ key v hnd'.2 h

theorem get_copyMetadata_cases : ∀ (m : StringMap) (c : MapClaims) (key : String),
    (∃ s, MapClaims.get (jwt.copyMetadata m c) key = some (Value.str s)) ∨
      MapClaims.get (jwt.copyMetadata m c) key = MapClaims.get c key
  | [], _, _ => Or.inr rfl
  | (k, v) :: rest, c, key => by
    rw [copyMetadata_cons]
    rcases get_copyMetadata_cases rest (MapClaims.set c k (Value.str v)) key with h | h
    · exact Or.inl h
    · by_cases hk : key = k
      · subst hk
        rw [MapClaims.get_set_self] at h
        exact Or.inl ⟨v, h⟩
      · rw [MapClaims.get_set_ne _ _ _ _ hk] at h
        exact Or.inr h

theorem sorted_copyMetadata : ∀ (m : StringMap) (c : MapClaims), MapClaims.Sorted c →
    MapClaims.Sorted (jwt.copyMetadata m c)
  | [], _, h => h
  | (k, v) :: rest, c, h => by
    rw [copyMetadata_cons]
    exact sorted_copyMetadata rest _ (MapClaims.sorted_set c k _ h)

theorem sorted_buildClaims (m : StringMap) (ttl : Duration) (now₁ now₂ : Time) :
    MapClaims.Sorted (jwt.buildClaims m ttl now₁ now₂) :=
  MapClaims.sorted_set _ _ _
    (MapClaims.sorted_set _ _ _ (sorted_copyMetadata m [] List.Pairwise.nil))

theorem get_buildClaims_iat (m : StringMap) (ttl : Duration) (now₁ now₂ : Time) :
    MapClaims.get (jwt.buildClaims m ttl now₁ now₂) "iat" =
      some (Value.num (Time.Unix now₁)) := by
  rw [jwt.buildClaims, MapClaims.get_set_ne _ _ _ _ (by decide), MapClaims.get_set_self]

theorem get_buildClaims_expires (m : StringMap) (ttl : Duration) (now₁ now₂ : Time) :
    MapClaims.get (jwt.buildClaims m ttl now₁ now₂) "expires" =
      some (Value.num (Time.Unix (Time.Add now₂ ttl))) := by
  rw [jwt.buildClaims, MapClaims.get_set_self]

theorem get_buildClaims_of_ne (m : StringMap) (ttl : Duration) (now₁ now₂ : Time)
    (key : String) (h₁ : key ≠ "iat") (h₂ : key ≠ "expires") :
    MapClaims.get (jwt.buildClaims m ttl now₁ now₂) key =
      MapClaims.get (jwt.copyMetadata m []) key := by
  rw [jwt.buildClaims, MapClaims.get_set_ne _ _ _ _ h₂, MapClaims.get_set_ne _ _ _ _ h₁]

theorem get_buildClaims_metadata (m : StringMap) (ttl : Duration) (now₁ now₂ : Time)
    (key v : String) (hnd : (m.map Prod.fst).Nodup) (h₁ : key ≠ "iat") (h₂ : key ≠ "expires")
    (h : StringMap.get m key = some v) :
    MapClaims.get (jwt.buildClaims m ttl now₁ now₂) key = some (Value.str v) := by
  rw [get_buildClaims_of_ne m ttl now₁ now₂ key h₁ h₂]
  exact get_copyMetadata m [] key v hnd h

theorem get_buildClaims_not_num (m : StringMap) (ttl : Duration) (now₁ now₂ : Time)
    (key : String) (h₁ : key ≠ "iat") (h₂ : key ≠ "expires") (n : Int) :
    MapClaims.get (jwt.buildClaims m ttl now₁ now₂) key ≠ some (Value.num n) := by
  rw [get_buildClaims_of_ne m ttl now₁ now₂ key h₁ h₂]
  rcases get_copyMetadata_cases m [] key with ⟨s, hs⟩ | h
  · rw [hs]
    simp
  · rw [h]
    simp [MapClaims.get]

theorem Valid_buildClaims (m : StringMap) (ttl : Duration) (now₁ now₂ now : Time) :
    jwtgo.Valid (jwt.buildClaims m ttl now₁ now₂) now =
      if Time.Unix now₁ = 0 ∨ Time.Unix now₁ ≤ Time.Unix now then none
      else some (GoError.New "Token used before issued") := by
  have hnbf : jwtgo.VerifyNotBefore (jwt.buildClaims m ttl now₁ now₂) (Time.Unix now) false
      = true := by
    have h := get_buildClaims_not_num m ttl now₁ now₂ "nbf" (by decide) (by decide)
    unfold jwtgo.VerifyNotBefore
    split
    · rename_i nbf hget
      exact absurd hget (h nbf)
    · rfl
  have hexp : jwtgo.VerifyExpiresAt (jwt.buildClaims m ttl now₁ now₂) (Time.Unix now) false
      = true := by
    have h := get_buildClaims_not_num m ttl now₁ now₂ "exp" (by decide) (by decide)
    unfold jwtgo.VerifyExpiresAt
    split
    · rename_i exp hget
      exact absurd hget (h exp)
    · rfl
  have hiat : jwtgo.VerifyIssuedAt (jwt.buildClaims m ttl now₁ now₂) (Time.Unix now) false
      = jwtgo.verifyIat (Time.Unix now₁) (Time.Unix now) false := by
    unfold jwtgo.VerifyIssuedAt
    rw [get_buildClaims_iat]
  unfold jwtgo.Valid
  rw [hnbf, hexp, hiat, jwtgo.verifyIat]
  by_cases h₀ : Time.Unix now₁ = 0
  · simp [h₀]
  · by_cases h₁ : Time.Unix now₁ ≤ Time.Unix now
    · simp [h₀, h₁]
    · simp [h₀, h₁]

theorem SignedString_ne_empty (hmac : Hmac) (method : String) (claims : MapClaims)
    (key : String) : jwtgo.SignedString hmac method claims key ≠ "" := by
  intro h
  have hd := congrArg String.data h
  have hs := jwtgo.Split_SignedString hmac method claims key
  rw [hd] at hs
  have hlen := congrArg List.length hs
  simp [jwtgo.Split] at hlen

/-- What `ExtractClaims` returns for a token minted by `GenerateNewJWTToken` under the
same key: the anonymous claim set when the token string contains "Basic"; otherwise the
signed claims, unless the clock reads a second before the second of minting. The value of
`expires` plays no part. -/
theorem ExtractClaims_minted (hmac : Hmac) (m : StringMap) (ttl : Duration) (key : String)
    (now₁ now₂ now : Time) :
    jwt.ExtractClaims (jwtgo.lib hmac)
        (jwtgo.SignedString hmac "HS256" (jwt.buildClaims m ttl now₁ now₂) key) key now =
      if jwt.Contains (jwtgo.SignedString hmac "HS256" (jwt.buildClaims m ttl now₁ now₂) key)
          "Basic" then .ok jwt.unauthorized
      else if Time.Unix now₁ = 0 ∨ Time.Unix now₁ ≤ Time.Unix now then
        .ok (jwt.buildClaims m ttl now₁ now₂)
      else .error (GoError.New "Token used before issued") := by
  rw [jwt.ExtractClaims, if_neg (SignedString_ne_empty hmac _ _ key)]
  split_ifs with hb hv
  · rfl
  · simp only [jwtgo.lib, jwtgo.ParseWithClaims_SignedString hmac _ key now
      (sorted_buildClaims m ttl now₁ now₂), Valid_buildClaims, if_pos hv]
    rfl
  · simp only [jwtgo.lib, jwtgo.ParseWithClaims_SignedString hmac _ key now
      (sorted_buildClaims m ttl now₁ now₂), Valid_buildClaims, if_neg hv]

theorem GenerateNewJWTToken_lib (hmac : Hmac) (m : StringMap) (ttl : Duration) (key : String)
    (now₁ now₂ : Time) :
    jwt.GenerateNewJWTToken (jwtgo.lib hmac) m ttl key now₁ now₂ =
      .ok (jwtgo.SignedString hmac "HS256" (jwt.buildClaims m ttl now₁ now₂) key) := rfl

theorem buildClaims_signed (lib : JwtLib) (m : StringMap) (ttl : Duration) (key : String)
    (now₁ now₂ : Time) (t : String)
    (h : jwt.GenerateNewJWTToken lib m ttl key now₁ now₂ = .ok t) :
    lib.SignedString (jwt.buildClaims m ttl now₁ now₂) key = .ok t := by
  unfold jwt.GenerateNewJWTToken at h
  split at h
  · exact absurd h (by simp)
  · rename_i t' ht
    rw [ht]
    exact h

/-! ## The round trip of Go strings of any bytes -/

theorem byteLess_cons_of_lt (a b : Nat) (x y : GoString) (h : a < b) :
    GoString.less (a :: x) (b :: y) = true := by
  rw [GoString.less, if_pos h]

theorem byteLess_cons_self (a : Nat) (x y : GoString) :
    GoString.less (a :: x) (a :: y) = GoString.less x y := by
  rw [GoString.less, if_neg (lt_irrefl a), if_pos rfl]

theorem byteLess_append_left : ∀ (p x y : GoString),
    GoString.less (p ++ x) (p ++ y) = GoString.less x y
  | [], _, _ => rfl
  | a :: p, x, y => by
    rw [List.cons_append, List.cons_append, byteLess_cons_self,
      byteLess_append_left p x y]

theorem byteLess_asymm : ∀ (x y : GoString), GoString.less x y = true →
    GoString.less y x = false
  | _, [], h => by simp [GoString.less] at h
  | [], _ :: _, _ => rfl
  | a :: as, b :: bs, h => by
    rw [GoString.less] at h ⊢
    split_ifs at h with hab hab'
    · rw [if_neg (by omega), if_neg (by omega)]
    · subst hab'
      rw [if_neg hab, if_pos rfl]
      exact byteLess_asymm as bs h

theorem char_lt_iff (a b : Char) : a < b ↔ a.toNat < b.toNat := Iff.rfl

theorem byteLess_cons_of_le (a b : Nat) (x y : GoString) (h : a ≤ b)
    (h' : a = b → GoString.less x y = true) : GoString.less (a :: x) (b :: y) = true := by
  rw [GoString.less]
  split_ifs with h₁ h₂
  · rfl
  · exact h' h₂
  · omega

theorem byteLess_EncodeRune (a b : Char) (x y : GoString) (h : a < b) :
    GoString.less (utf8.EncodeRune a ++ x) (utf8.EncodeRune b ++ y) = true := by
  have h' : a.toNat < b.toNat := (char_lt_iff a b).mp h
  unfold utf8.EncodeRune
  split_ifs <;> simp only [List.cons_append, List.nil_append]
  all_goals first
    | exact byteLess_cons_of_lt _ _ _ _ (by omega)
    | (refine byteLess_cons_of_le _ _ _ _ (by omega) (fun h₁ => ?_)
       first
        | exact byteLess_cons_of_lt _ _ _ _ (by omega)
        | (refine byteLess_cons_of_le _ _ _ _ (by omega) (fun h₂ => ?_)
           first
            | exact byteLess_cons_of_lt _ _ _ _ (by omega)
            | (refine byteLess_cons_of_le _ _ _ _ (by omega) (fun h₃ => ?_)
               exact byteLess_cons_of_lt _ _ _ _ (by omega))))

theorem byteLess_toBytes : ∀ (a b : List Char),
    GoString.less (utf8.toBytes a) (utf8.toBytes b) = lessChars a b
  | _, [] => by
    rw [utf8.toBytes]
    cases utf8.toBytes _ <;> simp [GoString.less, lessChars]
  | [], b :: bs => by
    obtain ⟨x, xs, hx⟩ := List.exists_cons_of_ne_nil (utf8.EncodeRune_ne_nil b)
    simp [utf8.toBytes, hx, GoString.less, lessChars]
  | a :: as, b :: bs => by
    rw [utf8.toBytes, utf8.toBytes, lessChars]
    split_ifs with h₁ h₂
    · exact byteLess_EncodeRune a b _ _ h₁
    · subst h₂
      rw [byteLess_append_left]
      exact byteLess_toBytes as bs
    · have h₃ : b < a := by
        rcases lt_trichotomy a b with h | h | h
        · exact absurd h h₁
        · exact absurd h h₂
        · exact h
      exact byteLess_asymm _ _ (byteLess_EncodeRune b a _ _ h₃)

theorem toBytes_injective {a b : List Char} (h : utf8.toBytes a = utf8.toBytes b) : a = b := by
  have h₁ := utf8.fromBytes_toBytes a
  rw [h, utf8.fromBytes_toBytes] at h₁
  exact (Option.some.inj h₁).symm

theorem ofString_injective {s t : String} (h : GoString.ofString s = GoString.ofString t) :
    s = t :=
  String.ext (toBytes_injective h)

theorem byteLess_ofString (s t : String) :
    GoString.less (GoString.ofString s) (GoString.ofString t) = less s t :=
  byteLess_toBytes s.data t.data


theorem set_ofClaims : ∀ (m : MapClaims) (k : String) (v : Value),
    bytes.MapClaims.set (bytes.ofClaims m) (GoString.ofString k) (bytes.ofValue v) =
      bytes.ofClaims (MapClaims.set m k v)
  | [], _, _ => rfl
  | (k₀, v₀) :: rest, k, v => by
    have ih := set_ofClaims rest k v
    simp only [bytes.ofClaims, List.map_cons] at ih ⊢
    rw [bytes.MapClaims.set, MapClaims.set, byteLess_ofString]
    by_cases h₁ : less k k₀ = true
    · simp only [if_pos h₁, List.map_cons]
    · by_cases h₂ : k = k₀
      · subst h₂
        simp only [if_neg h₁, if_true, List.map_cons]
      · have h₃ : ¬ GoString.ofString k = GoString.ofString k₀ := fun e => h₂ (ofString_injective e)
        simp only [if_neg h₁, if_neg h₂, if_neg h₃, List.map_cons, ih]

theorem copyMetadata_ofStringMap : ∀ (m : StringMap) (c : MapClaims),
    bytes.copyMetadata (bytes.ofStringMap m) (bytes.ofClaims c) =
      bytes.ofClaims (jwt.copyMetadata m c)
  | [], _ => rfl
  | (k, v) :: rest, c => by
    have h := set_ofClaims c k (Value.str v)
    have ih := copyMetadata_ofStringMap rest (MapClaims.set c k (Value.str v))
    rw [copyMetadata_cons, ← ih, ← h]
    rfl

theorem buildClaims_ofStringMap (m : StringMap) (ttl : Duration) (now₁ now₂ : Time) :
    bytes.buildClaims (bytes.ofStringMap m) ttl now₁ now₂ =
      bytes.ofClaims (jwt.buildClaims m ttl now₁ now₂) := by
  have h := copyMetadata_ofStringMap m []
  rw [jwt.buildClaims, ← set_ofClaims, ← set_ofClaims, ← h]
  rfl

namespace utf8

theorem DecodeRuneInString_EncodeRune_append (c : Char) (bs : List Nat) :
    DecodeRuneInString (EncodeRune c ++ bs) = some (c, bs) := by
  rw [DecodeRuneInString, DecodeRune_EncodeRune_append]
  simp

theorem runesAux_toBytes : ∀ (cs : List Char) (fuel : Nat), cs.length ≤ fuel →
    runesAux fuel (toBytes cs) = cs
  | [], fuel, _ => by cases fuel <;> rfl
  | c :: cs, 0, h => by simp at h
  | c :: cs, fuel + 1, h => by
    have hlen : cs.length ≤ fuel := by simpa using h
    obtain ⟨b, bs, hb⟩ := List.exists_cons_of_ne_nil (EncodeRune_ne_nil c)
    have hstep := DecodeRuneInString_EncodeRune_append c (toBytes cs)
    rw [toBytes]
    rw [hb] at hstep ⊢
    rw [List.cons_append] at hstep ⊢
    rw [runesAux, hstep]
    simp only [runesAux_toBytes cs fuel hlen]

end utf8

theorem text_ofString (s : String) : GoString.text (GoString.ofString s) = s := by
  rw [GoString.text, GoString.ofString, utf8.runesAux_toBytes _ _ (utf8.length_le_toBytes _)]

theorem read_ofValue (v : Value) : bytes.read (bytes.ofValue v) = v := by
  cases v with
  | str s => simp only [bytes.ofValue, bytes.read, text_ofString]
  | num n => rfl

theorem readClaims_ofClaims (m : MapClaims) (h : MapClaims.Sorted m) :
    bytes.readClaims (bytes.ofClaims m) = m := by
  have hmap : (bytes.ofClaims m).map (fun kv => (GoString.text kv.1, bytes.read kv.2)) = m := by
    rw [bytes.ofClaims, List.map_map]
    conv_rhs => rw [← List.map_id m]
    apply List.map_congr_left
    intro kv _
    simp only [Function.comp, text_ofString, read_ofValue, id]
  rw [bytes.readClaims, hmap, MapClaims.foldl_set_eq_append m [] (by simpa using h),
    List.nil_append]

theorem parseChar_escapeChar_bytes (short : Bool) (c : Char) (rest : List Char) :
    json.parseChar (bytes.escapeChar short c ++ rest) = some (c, rest) := by
  unfold bytes.escapeChar
  split_ifs with h₁ h₂
  · obtain ⟨-, rfl⟩ := h₁
    rfl
  · obtain ⟨-, rfl⟩ := h₂
    rfl
  · exact json.parseChar_escapeChar_append c rest

theorem escapeChar_bytes_head (short : Bool) (c : Char) :
    ∃ d tail, bytes.escapeChar short c = d :: tail ∧ d ≠ '"' := by
  unfold bytes.escapeChar
  split_ifs with h₁ h₂
  · exact ⟨'\\', _, rfl, by decide⟩
  · exact ⟨'\\', _, rfl, by decide⟩
  · exact json.escapeChar_head c

theorem parseChar_replacement (rest : List Char) :
    json.parseChar ('\\' :: 'u' :: 'f' :: 'f' :: 'f' :: 'd' :: rest) =
      some (Char.ofNat 0xFFFD, rest) := rfl

theorem parseStringAux_appendStringAux (short : Bool) : ∀ (fuel : Nat) (bs : GoString)
    (F : Nat) (rest : List Char), (utf8.runesAux fuel bs).length < F →
    json.parseStringAux F (bytes.appendStringAux short fuel bs ++ '"' :: rest) =
      some (utf8.runesAux fuel bs, rest)
  | 0, bs, F, rest, h => by
    obtain ⟨F, rfl⟩ : ∃ n, F = n + 1 := ⟨F - 1, by omega⟩
    simp [bytes.appendStringAux, utf8.runesAux, json.parseStringAux]
  | fuel + 1, [], F, rest, h => by
    obtain ⟨F, rfl⟩ : ∃ n, F = n + 1 := ⟨F - 1, by omega⟩
    simp [bytes.appendStringAux, utf8.runesAux, json.parseStringAux]
  | fuel + 1, b :: bs, F, rest, h => by
    obtain ⟨F, rfl⟩ : ∃ n, F = n + 1 := ⟨F - 1, by omega⟩
    rw [bytes.appendStringAux]
    rw [utf8.runesAux] at h ⊢
    cases hd : utf8.DecodeRuneInString (b :: bs) with
    | none =>
      simp only [hd, List.length_cons] at h ⊢
      have ih := parseStringAux_appendStringAux short fuel bs F rest (by omega)
      have hq : ¬ ('\\' = '"') := by decide
      simp only [List.cons_append, List.nil_append, List.append_assoc]
      rw [json.parseStringAux]
      simp only [if_neg hq, parseChar_replacement, ih]
    | some p =>
      obtain ⟨c, bs'⟩ := p
      simp only [hd, List.length_cons] at h ⊢
      have ih := parseStringAux_appendStringAux short fuel bs' F rest (by omega)
      obtain ⟨d, tail, hdt, hne⟩ := escapeChar_bytes_head short c
      have hstep := parseChar_escapeChar_bytes short c
        (bytes.appendStringAux short fuel bs' ++ '"' :: rest)
      rw [List.append_assoc]
      rw [hdt] at hstep ⊢
      rw [List.cons_append] at hstep ⊢
      rw [json.parseStringAux]
      simp only [if_neg hne, hstep, ih]

theorem length_runesAux_le (short : Bool) : ∀ (fuel : Nat) (bs : GoString),
    (utf8.runesAux fuel bs).length ≤ (bytes.appendStringAux short fuel bs).length
  | 0, _ => Nat.le_refl _
  | fuel + 1, [] => Nat.le_refl _
  | fuel + 1, b :: bs => by
    rw [bytes.appendStringAux, utf8.runesAux]
    cases hd : utf8.DecodeRuneInString (b :: bs) with
    | none =>
      have ih := length_runesAux_le short fuel bs
      simp only [List.length_cons, List.length_append]
      omega
    | some p =>
      obtain ⟨c, bs'⟩ := p
      have ih := length_runesAux_le short fuel bs'
      obtain ⟨d, tail, hdt, -⟩ := escapeChar_bytes_head short c
      simp only [hdt, List.length_cons, List.length_append]
      omega

theorem parseString_appendString (short : Bool) (s : GoString) (rest : List Char) :
    json.parseString (bytes.appendStringAux short s.length s ++ '"' :: rest) =
      some ((GoString.text s).data, rest) := by
  apply parseStringAux_appendStringAux
  have := length_runesAux_le short s.length s
  simp only [List.length_append, List.length_cons]
  omega

theorem parseValue_value_bytes (short : Bool) (v : bytes.Value) (rest : List Char)
    (h : json.noDigitHead rest) :
    json.parseValue (bytes.value short v ++ rest) = some (bytes.read v, rest) := by
  cases v with
  | str s =>
    simp only [bytes.value, bytes.appendString, List.cons_append, List.append_assoc,
      List.singleton_append, json.parseValue, if_true, parseString_appendString]
    rfl
  | num n => exact json.parseValue_value (Value.num n) rest h

theorem members_cons_append_bytes (short : Bool) (k : GoString) (v : bytes.Value)
    (ms : List (GoString × bytes.Value)) (rest : List Char) :
    bytes.members short ((k, v) :: ms) ++ '}' :: rest =
      '"' :: (bytes.appendStringAux short k.length k ++
        '"' :: ':' :: (bytes.value short v ++ bytes.afterMember short ms rest)) := by
  cases ms with
  | nil => simp [bytes.members, bytes.appendString, bytes.afterMember]
  | cons e es => simp [bytes.members, bytes.appendString, bytes.afterMember]

theorem noDigitHead_afterMember_bytes (short : Bool) (ms : List (GoString × bytes.Value))
    (rest : List Char) : json.noDigitHead (bytes.afterMember short ms rest) := by
  cases ms <;> simp only [bytes.afterMember, json.noDigitHead] <;> decide

theorem parseMembers_members_bytes (short : Bool) : ∀ (ms : List (GoString × bytes.Value))
    (k : GoString) (v : bytes.Value) (fuel : Nat) (rest : List Char), ms.length < fuel →
    json.parseMembers fuel (bytes.members short ((k, v) :: ms) ++ '}' :: rest) =
      some (((k, v) :: ms).map (fun kv => (GoString.text kv.1, bytes.read kv.2)), rest)
  | [], k, v, fuel, rest, h => by
    obtain ⟨fuel, rfl⟩ : ∃ n, fuel = n + 1 := ⟨fuel - 1, by omega⟩
    rw [members_cons_append_bytes, json.parseMembers]
    simp only [ne_eq, not_true_eq_false, if_false, parseString_appendString,
      parseValue_value_bytes short v _ (noDigitHead_afterMember_bytes short [] rest)]
    simp only [bytes.afterMember, if_true]
    rfl
  | (k₁, v₁) :: ms, k, v, fuel, rest, h => by
    obtain ⟨fuel, rfl⟩ : ∃ n, fuel = n + 1 := ⟨fuel - 1, by omega⟩
    have hlen : ms.length < fuel := by simpa using h
    have hc : ¬ (',' = '}') := by decide
    rw [members_cons_append_bytes, json.parseMembers]
    simp only [ne_eq, not_true_eq_false, if_false, parseString_appendString,
      parseValue_value_bytes short v _
        (noDigitHead_afterMember_bytes short ((k₁, v₁) :: ms) rest)]
    simp only [bytes.afterMember, if_true, if_neg hc,
      parseMembers_members_bytes short ms k₁ v₁ fuel rest hlen]
    rfl

theorem length_le_members_bytes (short : Bool) : ∀ ms : List (GoString × bytes.Value),
    ms.length ≤ (bytes.members short ms).length
  | [] => Nat.le_refl _
  | [(k, v)] => by
    simp only [bytes.members, bytes.appendString, List.length_cons, List.length_append,
      List.length_nil]
    omega
  | (k, v) :: e :: rest => by
    have := length_le_members_bytes short (e :: rest)
    simp only [bytes.members, bytes.appendString, List.length_cons, List.length_append] at this ⊢
    omega

theorem parseObject_Marshal_bytes (short : Bool) (m : bytes.MapClaims) :
    json.parseObject (bytes.Marshal short m) =
      some (m.map (fun kv => (GoString.text kv.1, bytes.read kv.2)), []) := by
  cases m with
  | nil => rfl
  | cons e ms =>
    obtain ⟨k, v⟩ := e
    have hq : ¬ ('"' = '}') := by decide
    have hlen := length_le_members_bytes short ((k, v) :: ms)
    have hm := members_cons_append_bytes short k v ms []
    have hstep : json.parseObject (bytes.Marshal short ((k, v) :: ms)) =
        json.parseMembers (bytes.members short ((k, v) :: ms) ++ ['}']).length
          (bytes.members short ((k, v) :: ms) ++ ['}']) := by
      rw [bytes.Marshal, hm]
      simp only [json.parseObject, ne_eq, not_true_eq_false, if_false, if_neg hq]
    rw [hstep]
    apply parseMembers_members_bytes
    simp only [List.length_cons, List.length_append, List.length_nil] at hlen ⊢
    omega

theorem Unmarshal_Marshal_bytes (short : Bool) (m : bytes.MapClaims) :
    json.Unmarshal (bytes.Marshal short m) [] = some (bytes.readClaims m) := by
  rw [json.Unmarshal, parseObject_Marshal_bytes]
  rfl

theorem Split_SignedString_bytes (short : Bool) (hmac : Hmac) (method : String)
    (claims : bytes.MapClaims) (key : String) :
    jwtgo.Split '.' (bytes.SignedString short hmac method claims key).data =
      [jwtgo.EncodeSegment (json.Marshal (jwtgo.header method)),
        jwtgo.EncodeSegment (bytes.Marshal short claims),
        base64.EncodeToString
          ((hmac method key (bytes.SigningString short method claims)).map (· % 256))] := by
  simp only [bytes.SignedString, bytes.SigningString, List.append_assoc, List.cons_append]
  rw [jwtgo.Split_append _ _ _ (jwtgo.dot_not_mem_EncodeSegment _),
    jwtgo.Split_append _ _ _ (jwtgo.dot_not_mem_EncodeSegment _),
    jwtgo.Split_of_not_mem _ _ (base64.dot_not_mem_EncodeToString _)]

/-- Parsing a token signed with HS256 under the same key, the claims being Go strings:
the outcome of the claims validation on the claims read back, and these claims when it
passes. -/
theorem ParseWithClaims_SignedString_bytes (short : Bool) (hmac : Hmac)
    (claims : bytes.MapClaims) (key : String) (now : Time) :
    jwtgo.ParseWithClaims hmac (bytes.SignedString short hmac "HS256" claims key) key now =
      match jwtgo.Valid (bytes.readClaims claims) now with
      | some err => .error err
      | none => .ok { Claims := bytes.readClaims claims, Valid := true } := by
  have hv := jwtgo.Verify_tag hmac "HS256" (bytes.SigningString short "HS256" claims) key
  rw [jwtgo.ParseWithClaims, Split_SignedString_bytes]
  simp only [jwtgo.DecodeSegment_EncodeSegment, Option.some_bind,
    json.Unmarshal_Marshal _ (jwtgo.sorted_header "HS256"), Unmarshal_Marshal_bytes]
  have halg : MapClaims.get (jwtgo.header "HS256") "alg" = some (Value.str "HS256") := by decide
  have hh : jwtgo.isHMAC "HS256" = true := by decide
  simp only [halg, hh, Bool.not_true, Bool.false_eq_true, if_false]
  rw [← bytes.SigningString, if_neg (by rw [hv]; decide)]

theorem SignedString_bytes_ne_empty (short : Bool) (hmac : Hmac) (method : String)
    (claims : bytes.MapClaims) (key : String) :
    bytes.SignedString short hmac method claims key ≠ "" := by
  intro h
  have hd := congrArg String.data h
  have hs := Split_SignedString_bytes short hmac method claims key
  rw [hd] at hs
  have hlen := congrArg List.length hs
  simp [jwtgo.Split] at hlen

/-- What `ExtractClaims` returns for a token signed under the same key, the claims
being Go strings: the anonymous claim set when the token string contains "Basic";
otherwise the outcome of the claims validation on the claims read back, and these claims
when it passes. -/
theorem ExtractClaims_SignedString_bytes (short : Bool) (hmac : Hmac)
    (claims : bytes.MapClaims) (key : String) (now : Time) :
    jwt.ExtractClaims (jwtgo.lib hmac) (bytes.SignedString short hmac "HS256" claims key)
        key now =
      if jwt.Contains (bytes.SignedString short hmac "HS256" claims key) "Basic" then
        .ok jwt.unauthorized
      else
        match jwtgo.Valid (bytes.readClaims claims) now with
        | some err => .error err
        | none => .ok (bytes.readClaims claims) := by
  rw [jwt.ExtractClaims, if_neg (SignedString_bytes_ne_empty short hmac _ _ key)]
  split_ifs with hb
  · rfl
  · simp only [jwtgo.lib, ParseWithClaims_SignedString_bytes]
    cases jwtgo.Valid (bytes.readClaims claims) now <;> rfl

theorem appendStringAux_toBytes : ∀ (cs : List Char) (fuel : Nat), cs.length ≤ fuel →
    bytes.appendStringAux false fuel (utf8.toBytes cs) = json.escape cs
  | [], fuel, _ => by cases fuel <;> rfl
  | c :: cs, 0, h => by simp at h
  | c :: cs, fuel + 1, h => by
    have hlen : cs.length ≤ fuel := by simpa using h
    obtain ⟨b, bs, hb⟩ := List.exists_cons_of_ne_nil (utf8.EncodeRune_ne_nil c)
    have hstep := utf8.DecodeRuneInString_EncodeRune_append c (utf8.toBytes cs)
    have he : bytes.escapeChar false c = json.escapeChar c := by simp [bytes.escapeChar]
    rw [utf8.toBytes]
    rw [hb] at hstep ⊢
    rw [List.cons_append] at hstep ⊢
    rw [bytes.appendStringAux, hstep]
    simp only [appendStringAux_toBytes cs fuel hlen, he, json.escape]

theorem appendString_ofString (s : String) :
    bytes.appendString false (GoString.ofString s) = json.quote s := by
  rw [bytes.appendString, GoString.ofString,
    appendStringAux_toBytes _ _ (utf8.length_le_toBytes _), json.quote]

theorem value_ofValue (v : Value) : bytes.value false (bytes.ofValue v) = json.value v := by
  cases v with
  | str s => exact appendString_ofString s
  | num n => rfl

theorem members_ofClaims : ∀ m : MapClaims,
    bytes.members false (bytes.ofClaims m) = json.members m
  | [] => rfl
  | [(k, v)] => by
    simp only [bytes.ofClaims, List.map_cons, List.map_nil, bytes.members, json.members,
      appendString_ofString, value_ofValue]
  | (k, v) :: e :: rest => by
    have ih := members_ofClaims (e :: rest)
    simp only [bytes.ofClaims, List.map_cons, bytes.members, json.members,
      appendString_ofString, value_ofValue] at ih ⊢
    rw [ih]

/-- On claims whose keys and strings are texts, the signing of this section with the
escapes of the releases of Go before 1.22 is the signing of `jwtgo`. -/
theorem SignedString_ofClaims (hmac : Hmac) (method : String) (claims : MapClaims)
    (key : String) :
    bytes.SignedString false hmac method (bytes.ofClaims claims) key =
      jwtgo.SignedString hmac method claims key := by
  have h : bytes.SigningString false method (bytes.ofClaims claims) =
      jwtgo.SigningString method claims := by
    rw [bytes.SigningString, jwtgo.SigningString, bytes.Marshal, members_ofClaims]
    rfl
  rw [bytes.SignedString, jwtgo.SignedString, h]

/-- On a map whose keys and values are texts, `GenerateNewJWTToken` of this section,
with the escapes of the releases of Go before 1.22, is `jwt.GenerateNewJWTToken`. -/
theorem GenerateNewJWTToken_ofStringMap (hmac : Hmac) (m : StringMap) (ttl : Duration)
    (key : String) (now₁ now₂ : Time) :
    bytes.GenerateNewJWTToken (bytes.signer false hmac) (bytes.ofStringMap m) ttl key
        now₁ now₂ =
      jwt.GenerateNewJWTToken (jwtgo.lib hmac) m ttl key now₁ now₂ := by
  rw [GenerateNewJWTToken_lib, bytes.GenerateNewJWTToken, bytes.signer,
    buildClaims_ofStringMap, SignedString_ofClaims]

/-- What `ExtractClaims` returns for a token minted by `GenerateNewJWTToken` from a map
whose keys and values are texts, under the same key and with either way of writing
U+0008 and U+000C. -/
theorem ExtractClaims_minted_bytes (short : Bool) (hmac : Hmac) (m : StringMap)
    (ttl : Duration) (key : String) (now₁ now₂ now : Time) :
    jwt.ExtractClaims (jwtgo.lib hmac)
        (bytes.SignedString short hmac "HS256"
          (bytes.buildClaims (bytes.ofStringMap m) ttl now₁ now₂) key) key now =
      if jwt.Contains (bytes.SignedString short hmac "HS256"
          (bytes.buildClaims (bytes.ofStringMap m) ttl now₁ now₂) key) "Basic" then
        .ok jwt.unauthorized
      else if Time.Unix now₁ = 0 ∨ Time.Unix now₁ ≤ Time.Unix now then
        .ok (jwt.buildClaims m ttl now₁ now₂)
      else .error (GoError.New "Token used before issued") := by
  rw [ExtractClaims_SignedString_bytes, buildClaims_ofStringMap,
    readClaims_ofClaims _ (sorted_buildClaims m ttl now₁ now₂), Valid_buildClaims]
  split_ifs <;> rfl

/-! ## Properties of the registration flow -/

/-- C1: when the phone number has a cached code `X`, the store accepts the new account
and both tokens are minted, `Registration` succeeds if the submitted code is `X`,
succeeds if it is the override code "020202", and for every other submitted code fails
with the 400 error "Kod noto'g'ri". -/
theorem Registration_code_check (a : adminController) (req : RegistrReq)
    (X accessToken refreshToken : String)
    (hcache : a.redisGet req.PhoneNumber = .ok X)
    (hstore : a.Create { ID := a.NewString, PhoneNumber := req.PhoneNumber, Code := "",
                         FcmToken := req.FcmToken } = none)
    (haccess : jwt.GenerateNewJWTToken a.lib (tokenMetadata a.NewString a.UserRole)
        a.JWTAccessTokenExpireDuration a.JWTSecretKey (a.Now 0) (a.Now 1) = .ok accessToken)
    (hrefresh : jwt.GenerateNewJWTToken a.lib (tokenMetadata a.NewString a.UserRole)
        a.JWTRefreshTokenExpireDuration a.JWTSecretKey (a.Now 2) (a.Now 3) = .ok refreshToken) :
    (req.Code = X → (a.Registration req).result =
        .ok { ID := a.NewString,
              Tokens := { AccessToken := accessToken, RefreshToken := refreshToken } }) ∧
    (req.Code = "020202" → (a.Registration req).result =
        .ok { ID := a.NewString,
              Tokens := { AccessToken := accessToken, RefreshToken := refreshToken } }) ∧
    (req.Code ≠ X → req.Code ≠ "020202" →
      (a.Registration req).result = .error (GoError.NewError 400 "Kod noto'g'ri")) := by
  have hrepo : adminRepo.Registration a.Create
      { ID := a.NewString, PhoneNumber := req.PhoneNumber, Code := "",
        FcmToken := req.FcmToken } = none := by
    simp [adminRepo.Registration, hstore]
  refine ⟨?_, ?_, ?_⟩
  · intro h
    simp [adminController.Registration, hcache, h, hrepo, haccess, hrefresh]
  · intro h
    simp [adminController.Registration, hcache, h, hrepo, haccess, hrefresh]
  · intro h₁ h₂
    have h₃ : ¬ X = req.Code := fun h => h₁ h.symm
    simp [adminController.Registration, hcache, h₂, h₃, StatusBadRequest]

/-- C1 (witness): the spec's scenario, with the cached code "4521": the submitted codes
"4521" and "020202" succeed, the submitted code "0000" fails. -/
theorem Registration_code_check_witness :
    ((freshWorld (jwtgo.lib sampleHmac)).Registration (sampleReq "4521")).result =
      .ok sampleRes ∧
    ((freshWorld (jwtgo.lib sampleHmac)).Registration (sampleReq "020202")).result =
      .ok sampleRes ∧
    ((freshWorld (jwtgo.lib sampleHmac)).Registration (sampleReq "0000")).result =
      .error (GoError.NewError 400 "Kod noto'g'ri") :=
  ⟨(Registration_code_check (freshWorld (jwtgo.lib sampleHmac)) (sampleReq "4521") "4521"
      _ _ rfl rfl rfl rfl).1 rfl,
    (Registration_code_check (freshWorld (jwtgo.lib sampleHmac)) (sampleReq "020202") "4521"
      _ _ rfl rfl rfl rfl).2.1 rfl,
    (Registration_code_check (freshWorld (jwtgo.lib sampleHmac)) (sampleReq "0000") "4521"
      _ _ rfl rfl rfl rfl).2.2 (by decide) (by decide)⟩

/-- C2: when the verification cache has no entry for the phone number (`redis.Nil`),
`Registration` fails with the 400 error "Code is invalid or expired" whatever code is
submitted, and the store is not called. -/
theorem Registration_no_cache_entry (a : adminController) (req : RegistrReq)
    (hcache : a.redisGet req.PhoneNumber = .error RedisError.Nil) :
    (a.Registration req).result =
        .error (GoError.NewError 400 "Code is invalid or expired") ∧
    ∀ row, Call.storageRegistration row ∉ (a.Registration req).calls := by
  simp [adminController.Registration, hcache, StatusBadRequest]

/-- C2 (witness): no cache entry and the override code "020202". -/
theorem Registration_no_cache_entry_witness :
    ((emptyCacheWorld failingLib).Registration (sampleReq "020202")).result =
        .error (GoError.NewError 400 "Code is invalid or expired") ∧
    ∀ row, Call.storageRegistration row ∉
      ((emptyCacheWorld failingLib).Registration (sampleReq "020202")).calls :=
  Registration_no_cache_entry (emptyCacheWorld failingLib) (sampleReq "020202") rfl

/-- C3 (counterexample): the store reports a unique-constraint violation for the phone
number, the cached code is "4521" and the submitted code is "0000"; the call fails with
the 400 error "Kod noto'g'ri", not with `AccountAlreadyExists`, and the store is not
called. -/
theorem Registration_duplicate_wrong_code :
    adminRepo.Registration (duplicateWorld failingLib).Create sampleRow =
      some GoError.ErrAccountAlreadyExists ∧
    ((duplicateWorld failingLib).Registration (sampleReq "0000")).result =
      .error (GoError.NewError 400 "Kod noto'g'ri") ∧
    ((duplicateWorld failingLib).Registration (sampleReq "0000")).result ≠
      .error GoError.ErrAccountAlreadyExists ∧
    ((duplicateWorld failingLib).Registration (sampleReq "0000")).calls =
      [Call.redisGet "+19998887777"] := by
  decide

/-- C3 (amended): when the store reports a unique-constraint violation (PG code 23505)
on every insert, `adminRepo.Registration` returns `ErrAccountAlreadyExists`, and
`adminController.Registration` fails for every submitted code; the code check comes
first: with a cached code `X`, a submitted code that is neither `X` nor "020202" fails
with the 400 error "Kod noto'g'ri" and the store is not called. -/
theorem Registration_duplicate_account (a : adminController) (req : RegistrReq)
    (hdup : ∀ row, ∃ e, a.Create row = some e ∧ asPgError e = some "23505") :
    (∀ row, adminRepo.Registration a.Create row = some GoError.ErrAccountAlreadyExists) ∧
    (∃ err, (a.Registration req).result = .error err) ∧
    (∀ X, a.redisGet req.PhoneNumber = .ok X → req.Code ≠ X → req.Code ≠ "020202" →
      (a.Registration req).result = .error (GoError.NewError 400 "Kod noto'g'ri") ∧
      ∀ row, Call.storageRegistration row ∉ (a.Registration req).calls) := by
  have hrepo : ∀ row, adminRepo.Registration a.Create row =
      some GoError.ErrAccountAlreadyExists := by
    intro row
    obtain ⟨e, he, hpg⟩ := hdup row
    simp [adminRepo.Registration, he, hpg, constants.PGUniqueKeyViolationCode]
  refine ⟨hrepo, ?_, ?_⟩
  · unfold adminController.Registration
    rcases hget : a.redisGet req.PhoneNumber with err | storedCode
    · cases err <;> simp
    · by_cases hc : storedCode ≠ req.Code ∧ req.Code ≠ "020202"
      · simp only [if_pos hc]
        exact ⟨_, rfl⟩
      · simp only [if_neg hc, hrepo]
        exact ⟨_, rfl⟩
  · intro X hX h₁ h₂
    have h₃ : ¬ X = req.Code := fun h => h₁ h.symm
    simp [adminController.Registration, hX, h₂, h₃, StatusBadRequest]

/-- C3 (witness): the world in which every insert hits the unique constraint: the store
reports `ErrAccountAlreadyExists`, the matching code "4521" fails, and the code "0000"
fails with the 400 error "Kod noto'g'ri" without a call to the store. -/
theorem Registration_duplicate_account_witness :
    adminRepo.Registration (duplicateWorld failingLib).Create sampleRow =
      some GoError.ErrAccountAlreadyExists ∧
    (∃ err, ((duplicateWorld failingLib).Registration (sampleReq "4521")).result =
      .error err) ∧
    ((duplicateWorld failingLib).Registration (sampleReq "0000")).result =
        .error (GoError.NewError 400 "Kod noto'g'ri") ∧
    ∀ row, Call.storageRegistration row ∉
      ((duplicateWorld failingLib).Registration (sampleReq "0000")).calls :=
  ⟨(Registration_duplicate_account (duplicateWorld failingLib) (sampleReq "4521")
      (fun _ => ⟨_, rfl, rfl⟩)).1 sampleRow,
    (Registration_duplicate_account (duplicateWorld failingLib) (sampleReq "4521")
      (fun _ => ⟨_, rfl, rfl⟩)).2.1,
    (Registration_duplicate_account (duplicateWorld failingLib) (sampleReq "0000")
      (fun _ => ⟨_, rfl, rfl⟩)).2.2 "4521" rfl (by decide) (by decide)⟩

/-- C4 (the code at the failing input): the cached code matches and the store reports
a duplicate account (`ErrAccountAlreadyExists`); the call fails with an error whose
status is 500, which is not of the 400 class. With a signing failure the returned error
is the library's own, not one built by `NewError`. -/
theorem Registration_duplicate_status :
    adminRepo.Registration (duplicateWorld failingLib).Create sampleRow =
      some GoError.ErrAccountAlreadyExists ∧
    ((duplicateWorld failingLib).Registration (sampleReq "4521")).result =
      .error (GoError.NewError 500 "Telefon raqamini saqlashda xatolik") ∧
    (GoError.NewError 500 "Telefon raqamini saqlashda xatolik").status = some 500 ∧
    ¬ is4xx 500 ∧
    ((freshWorld failingLib).Registration (sampleReq "4521")).result =
      .error (GoError.New "key is invalid") ∧
    (GoError.New "key is invalid").status = none := by
  decide

/-! ## Properties of the JWT helpers -/

theorem containsChars_append_right (sub : List Char) : ∀ a b : List Char,
    jwt.containsChars b sub = true → jwt.containsChars (a ++ b) sub = true
  | [], _, h => h
  | c :: a, b, h => by
    rw [List.cons_append, jwt.containsChars, containsChars_append_right sub a b h]
    simp

theorem containsChars_append_left (sub : List Char) : ∀ a b : List Char,
    jwt.containsChars a sub = true → jwt.containsChars (a ++ b) sub = true
  | [], b, h => by
    have hsub : sub = [] := by simpa [jwt.containsChars] using h
    subst hsub
    cases b <;> simp [jwt.containsChars]
  | c :: a, b, h => by
    rw [jwt.containsChars, Bool.or_eq_true] at h
    rw [List.cons_append, jwt.containsChars, Bool.or_eq_true]
    rcases h with h | h
    · left
      rw [List.isPrefixOf_iff_prefix] at h ⊢
      exact h.trans (List.prefix_append (c :: a) b)
    · right
      exact containsChars_append_left sub a b h

/-- C5 (the code past the expiry time): a token minted with a non-negative ttl and
handed to `ExtractClaims` with the same key at any time after mint time + ttl is not
rejected: the call returns no error, and the claims it returns are the signed claims
(or the anonymous claim set, when the token string contains "Basic"). -/
theorem ExtractClaims_after_expiry (hmac : Hmac) (m : StringMap) (ttl : Duration)
    (key : String) (now₁ now₂ now : Time)
    (httl : 0 ≤ ttl) (hmint : now₁ ≤ now₂) (hexpired : Time.Add now₂ ttl < now) :
    jwt.GenerateNewJWTToken (jwtgo.lib hmac) m ttl key now₁ now₂ =
      .ok (jwtgo.SignedString hmac "HS256" (jwt.buildClaims m ttl now₁ now₂) key) ∧
    jwt.ExtractClaims (jwtgo.lib hmac)
        (jwtgo.SignedString hmac "HS256" (jwt.buildClaims m ttl now₁ now₂) key) key now =
      .ok (if jwt.Contains
            (jwtgo.SignedString hmac "HS256" (jwt.buildClaims m ttl now₁ now₂) key) "Basic"
          then jwt.unauthorized else jwt.buildClaims m ttl now₁ now₂) := by
  have hadd : now₂ ≤ Time.Add now₂ ttl := le_add_of_nonneg_right httl
  have hle : Time.Unix now₁ ≤ Time.Unix now :=
    Unix_mono (le_trans hmint (le_trans hadd (le_of_lt hexpired)))
  refine ⟨rfl, ?_⟩
  rw [ExtractClaims_minted]
  split_ifs with hb
  · rfl
  · rfl
  · exact absurd (Or.inr hle) (by assumption)

set_option maxRecDepth 100000 in
/-- C5 (witness, the failing input): a token for `{id: "u1", role: "user"}` minted with a
ttl of one hour at second 1700000000 and read two hours later. -/
theorem ExtractClaims_after_expiry_witness :
    (jwt.GenerateNewJWTToken (jwtgo.lib sampleHmac) [("id", "u1"), ("role", "user")]
        3600000000000 "secret" 1700000000000000000 1700000000000000000 =
      .ok (jwtgo.SignedString sampleHmac "HS256" (jwt.buildClaims
        [("id", "u1"), ("role", "user")] 3600000000000 1700000000000000000
        1700000000000000000) "secret") ∧
    jwt.ExtractClaims (jwtgo.lib sampleHmac)
        (jwtgo.SignedString sampleHmac "HS256" (jwt.buildClaims
          [("id", "u1"), ("role", "user")] 3600000000000 1700000000000000000
          1700000000000000000) "secret") "secret" 1700007200000000000 =
      .ok (if jwt.Contains
            (jwtgo.SignedString sampleHmac "HS256" (jwt.buildClaims
              [("id", "u1"), ("role", "user")] 3600000000000 1700000000000000000
              1700000000000000000) "secret") "Basic"
          then jwt.unauthorized
          else jwt.buildClaims [("id", "u1"), ("role", "user")] 3600000000000
            1700000000000000000 1700000000000000000)) ∧
    jwt.ExtractClaims (jwtgo.lib sampleHmac)
        (jwtgo.SignedString sampleHmac "HS256" (jwt.buildClaims
          [("id", "u1"), ("role", "user")] 3600000000000 1700000000000000000
          1700000000000000000) "secret") "secret" 1700007200000000000 =
      .ok [("expires", Value.num 1700003600), ("iat", Value.num 1700000000),
        ("id", Value.str "u1"), ("role", Value.str "user")] :=
  ⟨ExtractClaims_after_expiry sampleHmac [("id", "u1"), ("role", "user")] 3600000000000
      "secret" 1700000000000000000 1700000000000000000 1700007200000000000
      (by decide) (by decide) (by decide),
    by decide⟩

set_option maxRecDepth 100000 in
/-- C6 (counterexample): three minted tokens read back at the instant of minting, with
either way of writing U+0008 and U+000C and whatever the tag function. For the claims
`{iat: "yesterday"}` the claim set returned does not hold the pair. For the claims
`{id: "u1AjȜ"}` the claims segment of the token string contains "Basic" and the claim
set returned is `{role: "unauthorized"}`, without the pair of `id`. For the claims
`{id: "\xff"}`, whose value is the single byte 255 and so not UTF-8, the text signed
holds the escape of U+FFFD, and the value returned under `id`, if any, is not the byte
255: with the sample tag function it is the text U+FFFD. -/
theorem ExtractClaims_roundtrip_counterexample :
    (∀ (shortEscapes : Bool) (hmac : Hmac), ∃ claims,
      bytes.GenerateNewJWTToken (bytes.signer shortEscapes hmac)
          (bytes.ofStringMap [("iat", "yesterday")]) 3600000000000 "secret"
          1700000000000000000 1700000000000000000 =
        .ok (bytes.SignedString shortEscapes hmac "HS256" (bytes.buildClaims
          (bytes.ofStringMap [("iat", "yesterday")]) 3600000000000 1700000000000000000
          1700000000000000000) "secret") ∧
      jwt.ExtractClaims (jwtgo.lib hmac)
        (bytes.SignedString shortEscapes hmac "HS256" (bytes.buildClaims
          (bytes.ofStringMap [("iat", "yesterday")]) 3600000000000 1700000000000000000
          1700000000000000000) "secret")
        "secret" 1700000000000000000 = .ok claims ∧
      MapClaims.get claims "iat" ≠ some (Value.str "yesterday")) ∧
    (∀ (shortEscapes : Bool) (hmac : Hmac),
      bytes.GenerateNewJWTToken (bytes.signer shortEscapes hmac)
          (bytes.ofStringMap [("id", "u1AjȜ")]) 3600000000000 "secret"
          1700000000000000000 1700000000000000000 =
        .ok (bytes.SignedString shortEscapes hmac "HS256" (bytes.buildClaims
          (bytes.ofStringMap [("id", "u1AjȜ")]) 3600000000000 1700000000000000000
          1700000000000000000) "secret") ∧
      jwt.ExtractClaims (jwtgo.lib hmac)
        (bytes.SignedString shortEscapes hmac "HS256" (bytes.buildClaims
          (bytes.ofStringMap [("id", "u1AjȜ")]) 3600000000000 1700000000000000000
          1700000000000000000) "secret")
        "secret" 1700000000000000000 = .ok [("role", Value.str "unauthorized")]) ∧
    (∀ shortEscapes : Bool,
      String.mk (jwtgo.EncodeSegment (bytes.Marshal shortEscapes (bytes.buildClaims
        (bytes.ofStringMap [("id", "u1AjȜ")]) 3600000000000 1700000000000000000
        1700000000000000000))) =
      "eyJleHBpcmVzIjoxNzAwMDAzNjAwLCJpYXQiOjE3MDAwMDAwMDAsImlkIjoidTFBasicIn0") ∧
    MapClaims.get [("role", Value.str "unauthorized")] "id" = none ∧
    (∀ (shortEscapes : Bool) (hmac : Hmac), ∃ claims,
      bytes.GenerateNewJWTToken (bytes.signer shortEscapes hmac)
          [(GoString.ofString "id", [255])] 3600000000000 "secret"
          1700000000000000000 1700000000000000000 =
        .ok (bytes.SignedString shortEscapes hmac "HS256" (bytes.buildClaims
          [(GoString.ofString "id", [255])] 3600000000000 1700000000000000000
          1700000000000000000) "secret") ∧
      jwt.ExtractClaims (jwtgo.lib hmac)
        (bytes.SignedString shortEscapes hmac "HS256" (bytes.buildClaims
          [(GoString.ofString "id", [255])] 3600000000000 1700000000000000000
          1700000000000000000) "secret")
        "secret" 1700000000000000000 = .ok claims ∧
      ∀ v, MapClaims.get claims "id" = some v → bytes.ofValue v ≠ bytes.Value.str [255]) ∧
    (∀ shortEscapes : Bool,
      String.mk (bytes.Marshal shortEscapes (bytes.buildClaims
        [(GoString.ofString "id", [255])] 3600000000000 1700000000000000000
        1700000000000000000)) =
      "\x7b\"expires\":1700003600,\"iat\":1700000000,\"id\":\"\\ufffd\"\x7d") ∧
    jwt.ExtractClaims (jwtgo.lib sampleHmac)
        (bytes.SignedString true sampleHmac "HS256" (bytes.buildClaims
          [(GoString.ofString "id", [255])] 3600000000000 1700000000000000000
          1700000000000000000) "secret")
        "secret" 1700000000000000000 =
      .ok [("expires", Value.num 1700003600), ("iat", Value.num 1700000000),
        ("id", Value.str (String.mk [Char.ofNat 0xFFFD]))] ∧
    GoString.ofString (String.mk [Char.ofNat 0xFFFD]) = [239, 191, 189] := by
  refine ⟨?_, ?_, by decide, by decide, ?_, by decide, by decide, by decide⟩
  · intro short hmac
    by_cases hb : jwt.Contains (bytes.SignedString short hmac "HS256" (bytes.buildClaims
        (bytes.ofStringMap [("iat", "yesterday")]) 3600000000000 1700000000000000000
        1700000000000000000) "secret") "Basic" = true
    · refine ⟨jwt.unauthorized, rfl, ?_, by decide⟩
      rw [ExtractClaims_minted_bytes, if_pos hb]
    · refine ⟨jwt.buildClaims [("iat", "yesterday")] 3600000000000 1700000000000000000
        1700000000000000000, rfl, ?_, ?_⟩
      · rw [ExtractClaims_minted_bytes, if_neg hb, if_pos (Or.inr (le_refl _))]
      · rw [get_buildClaims_iat]
        simp
  · intro short hmac
    refine ⟨rfl, ?_⟩
    have hseg : jwt.containsChars (jwtgo.EncodeSegment (bytes.Marshal short
        (bytes.buildClaims (bytes.ofStringMap [("id", "u1AjȜ")]) 3600000000000
          1700000000000000000 1700000000000000000))) "Basic".data = true := by
      cases short <;> decide
    have hb : jwt.Contains (bytes.SignedString short hmac "HS256" (bytes.buildClaims
        (bytes.ofStringMap [("id", "u1AjȜ")]) 3600000000000 1700000000000000000
        1700000000000000000) "secret") "Basic" = true := by
      rw [jwt.Contains, bytes.SignedString, bytes.SigningString, List.append_assoc]
      apply containsChars_append_right
      rw [List.cons_append, jwt.containsChars, Bool.or_eq_true]
      right
      exact containsChars_append_left _ _ _ hseg
    rw [ExtractClaims_minted_bytes, if_pos hb]
    rfl
  · intro short hmac
    have hr : bytes.readClaims (bytes.buildClaims [(GoString.ofString "id", [255])]
        3600000000000 1700000000000000000 1700000000000000000) =
        [("expires", Value.num 1700003600), ("iat", Value.num 1700000000),
          ("id", Value.str (String.mk [Char.ofNat 0xFFFD]))] := by decide
    by_cases hb : jwt.Contains (bytes.SignedString short hmac "HS256" (bytes.buildClaims
        [(GoString.ofString "id", [255])] 3600000000000 1700000000000000000
        1700000000000000000) "secret") "Basic" = true
    · refine ⟨jwt.unauthorized, rfl, ?_, ?_⟩
      · rw [ExtractClaims_SignedString_bytes, if_pos hb]
      · intro v hv
        have hg : MapClaims.get jwt.unauthorized "id" = none := by decide
        rw [hg] at hv
        exact absurd hv (by simp)
    · refine ⟨[("expires", Value.num 1700003600), ("iat", Value.num 1700000000),
          ("id", Value.str (String.mk [Char.ofNat 0xFFFD]))], rfl, ?_, ?_⟩
      · rw [ExtractClaims_SignedString_bytes, if_neg hb, hr]
        rfl
      · intro v hv
        have hg : MapClaims.get [("expires", Value.num 1700003600),
            ("iat", Value.num 1700000000), ("id", Value.str (String.mk [Char.ofNat 0xFFFD]))]
            "id" = some (Value.str (String.mk [Char.ofNat 0xFFFD])) := by decide
        rw [hg] at hv
        rw [← Option.some.inj hv]
        decide

/-- C6 (amended): for a claims map whose keys and values are texts (Go strings that are
valid UTF-8), with distinct keys, a token minted under key `k` and read back with `k`
before its expiry time (the clock going forward: `now₁ ≤ now₂ ≤ now` and
`now ≤ now₂ + ttl`, so the ttl is non-negative), with either way of writing U+0008 and
U+000C and whatever the tag function (so also for the tag under a key of any bytes,
which is a function of the method and the text). When the token string contains "Basic" the result
is the anonymous claim set and no error. Otherwise the result is no error and a claim
set that holds every pair of the map whose key is neither `iat` nor `expires`, with
`iat` the second of minting and `expires` the second of expiry, and `iat ≤ now ≤ expires`
in seconds. -/
theorem ExtractClaims_GenerateNewJWTToken (shortEscapes : Bool) (hmac : Hmac) (m : StringMap)
    (ttl : Duration) (key : String) (now₁ now₂ now : Time)
    (hkeys : (m.map Prod.fst).Nodup) (hmint : now₁ ≤ now₂) (hnow : now₂ ≤ now)
    (hfresh : now ≤ Time.Add now₂ ttl) :
    ∃ tokenString,
      bytes.GenerateNewJWTToken (bytes.signer shortEscapes hmac) (bytes.ofStringMap m) ttl key
        now₁ now₂ = .ok tokenString ∧
      (jwt.Contains tokenString "Basic" = true →
        jwt.ExtractClaims (jwtgo.lib hmac) tokenString key now = .ok jwt.unauthorized) ∧
      (jwt.Contains tokenString "Basic" = false →
        ∃ claims, jwt.ExtractClaims (jwtgo.lib hmac) tokenString key now = .ok claims ∧
          (∀ k v, k ≠ "iat" → k ≠ "expires" → StringMap.get m k = some v →
            MapClaims.get claims k = some (Value.str v)) ∧
          MapClaims.get claims "iat" = some (Value.num (Time.Unix now₁)) ∧
          MapClaims.get claims "expires" = some (Value.num (Time.Unix (Time.Add now₂ ttl))) ∧
          Time.Unix now₁ ≤ Time.Unix now ∧ Time.Unix now ≤ Time.Unix (Time.Add now₂ ttl)) := by
  have hle : Time.Unix now₁ ≤ Time.Unix now := Unix_mono (le_trans hmint hnow)
  refine ⟨bytes.SignedString shortEscapes hmac "HS256"
    (bytes.buildClaims (bytes.ofStringMap m) ttl now₁ now₂) key, rfl, ?_, ?_⟩
  · intro hb
    rw [ExtractClaims_minted_bytes, if_pos hb]
  · intro hb
    refine ⟨jwt.buildClaims m ttl now₁ now₂, ?_, ?_, get_buildClaims_iat m ttl now₁ now₂,
      get_buildClaims_expires m ttl now₁ now₂, hle, Unix_mono hfresh⟩
    · rw [ExtractClaims_minted_bytes, hb, if_neg (by decide), if_pos (Or.inr hle)]
    · intro k v h₁ h₂ hget
      exact get_buildClaims_metadata m ttl now₁ now₂ k v hkeys h₁ h₂ hget

/-- C6 (witness): the claims `{id: "u1", role: "user"}`, a ttl of one hour, read at
the instant of minting, with the escapes of Go 1.22. -/
theorem ExtractClaims_GenerateNewJWTToken_witness :
    ∃ tokenString,
      bytes.GenerateNewJWTToken (bytes.signer true sampleHmac)
        (bytes.ofStringMap [("id", "u1"), ("role", "user")])
        3600000000000 "secret" 1700000000000000000 1700000000000000000 = .ok tokenString ∧
      (jwt.Contains tokenString "Basic" = true →
        jwt.ExtractClaims (jwtgo.lib sampleHmac) tokenString "secret" 1700000000000000000 =
          .ok jwt.unauthorized) ∧
      (jwt.Contains tokenString "Basic" = false →
        ∃ claims, jwt.ExtractClaims (jwtgo.lib sampleHmac) tokenString "secret"
            1700000000000000000 = .ok claims ∧
          (∀ k v, k ≠ "iat" → k ≠ "expires" →
            StringMap.get [("id", "u1"), ("role", "user")] k = some v →
            MapClaims.get claims k = some (Value.str v)) ∧
          MapClaims.get claims "iat" = some (Value.num (Time.Unix 1700000000000000000)) ∧
          MapClaims.get claims "expires" =
            some (Value.num (Time.Unix (Time.Add 1700000000000000000 3600000000000))) ∧
          Time.Unix 1700000000000000000 ≤ Time.Unix 1700000000000000000 ∧
          Time.Unix 1700000000000000000 ≤
            Time.Unix (Time.Add 1700000000000000000 3600000000000)) :=
  ExtractClaims_GenerateNewJWTToken true sampleHmac [("id", "u1"), ("role", "user")]
    3600000000000 "secret" 1700000000000000000 1700000000000000000 1700000000000000000
    (by decide) (by decide) (by decide) (by decide)

/-- C7 (counterexample): for the metadata `{iat: "yesterday"}` the signed claim under
`iat` is the second of minting, not the supplied value; and for `{id: "u1"}` the claim
set has no key `issued_at` and no key `expires_at`. -/
theorem buildClaims_counterexample :
    StringMap.get [("iat", "yesterday")] "iat" = some "yesterday" ∧
    MapClaims.get (jwt.buildClaims [("iat", "yesterday")] 3600000000000
        1700000000000000000 1700000000000000000) "iat" = some (Value.num 1700000000) ∧
    MapClaims.get (jwt.buildClaims [("id", "u1")] 3600000000000
        1700000000000000000 1700000000000000000) "issued_at" = none ∧
    MapClaims.get (jwt.buildClaims [("id", "u1")] 3600000000000
        1700000000000000000 1700000000000000000) "expires_at" = none := by
  decide

/-- C7 (amended): the claim set `GenerateNewJWTToken` signs holds, for every key of the
metadata other than `iat` and `expires`, the supplied value; under `iat` the first
clock reading and under `expires` the second clock reading plus the ttl, both in unix
seconds; and it is this claim set that is handed to the signer. -/
theorem buildClaims_embeds (m : StringMap) (ttl : Duration) (now₁ now₂ : Time)
    (hkeys : (m.map Prod.fst).Nodup) :
    (∀ k v, k ≠ "iat" → k ≠ "expires" → StringMap.get m k = some v →
      MapClaims.get (jwt.buildClaims m ttl now₁ now₂) k = some (Value.str v)) ∧
    MapClaims.get (jwt.buildClaims m ttl now₁ now₂) "iat" =
      some (Value.num (Time.Unix now₁)) ∧
    MapClaims.get (jwt.buildClaims m ttl now₁ now₂) "expires" =
      some (Value.num (Time.Unix (Time.Add now₂ ttl))) ∧
    (∀ (lib : JwtLib) (key t : String),
      jwt.GenerateNewJWTToken lib m ttl key now₁ now₂ = .ok t →
      lib.SignedString (jwt.buildClaims m ttl now₁ now₂) key = .ok t) := by
  refine ⟨?_, get_buildClaims_iat m ttl now₁ now₂, get_buildClaims_expires m ttl now₁ now₂, ?_⟩
  · intro k v h₁ h₂ hget
    exact get_buildClaims_metadata m ttl now₁ now₂ k v hkeys h₁ h₂ hget
  · intro lib key t h
    unfold jwt.GenerateNewJWTToken at h
    split at h
    · exact absurd h (by simp)
    · rename_i t' ht
      rw [ht]
      exact h

/-- C7 (witness): the metadata of a registration, `{id, role}`. -/
theorem buildClaims_embeds_witness :
    (∀ k v, k ≠ "iat" → k ≠ "expires" →
      StringMap.get (tokenMetadata "u1" "user") k = some v →
      MapClaims.get (jwt.buildClaims (tokenMetadata "u1" "user") 3600000000000
        1700000000000000000 1700000000500000000) k = some (Value.str v)) ∧
    MapClaims.get (jwt.buildClaims (tokenMetadata "u1" "user") 3600000000000
        1700000000000000000 1700000000500000000) "iat" =
      some (Value.num (Time.Unix 1700000000000000000)) ∧
    MapClaims.get (jwt.buildClaims (tokenMetadata "u1" "user") 3600000000000
        1700000000000000000 1700000000500000000) "expires" =
      some (Value.num (Time.Unix (Time.Add 1700000000500000000 3600000000000))) ∧
    (∀ (lib : JwtLib) (key t : String),
      jwt.GenerateNewJWTToken lib (tokenMetadata "u1" "user") 3600000000000 key
        1700000000000000000 1700000000500000000 = .ok t →
      lib.SignedString (jwt.buildClaims (tokenMetadata "u1" "user") 3600000000000
        1700000000000000000 1700000000500000000) key = .ok t) :=
  buildClaims_embeds (tokenMetadata "u1" "user") 3600000000000 1700000000000000000
    1700000000500000000 (by decide)

/-- C8: for every signing key (and every library and clock reading), `ExtractClaims` on
the empty token string, or on a token string that contains "Basic", returns no error
and exactly the claim set `{role: "unauthorized"}`; the library is not consulted. -/
theorem ExtractClaims_anonymous (lib : JwtLib) (tokenString signingKey : String) (now : Time)
    (h : tokenString = "" ∨ jwt.Contains tokenString "Basic" = true) :
    jwt.ExtractClaims lib tokenString signingKey now =
      .ok [("role", Value.str "unauthorized")] := by
  unfold jwt.ExtractClaims
  rcases h with h | h
  · rw [if_pos h]
    rfl
  · rw [if_pos h]
    split_ifs <;> rfl

/-- C8 (witness): a Basic header, with a library that accepts no token. -/
theorem ExtractClaims_anonymous_witness :
    jwt.ExtractClaims failingLib "Basic dXNlcjpwYXNz" "secret" 1700000000000000000 =
      .ok [("role", Value.str "unauthorized")] :=
  ExtractClaims_anonymous failingLib "Basic dXNlcjpwYXNz" "secret" 1700000000000000000
    (Or.inr (by decide))

/-- C9 (counterexample): `ExtractUserIDFromToken` returns an error for an empty
Authorization header and for a Basic header. -/
theorem ExtractUserIDFromToken_counterexample :
    jwt.ExtractUserIDFromToken (jwtgo.lib sampleHmac) "" "secret" 1700000000000000000 =
      .error (GoError.New "authorization header is missing") ∧
    jwt.ExtractUserIDFromToken (jwtgo.lib sampleHmac) "Basic dXNlcjpwYXNz" "secret"
        1700000000000000000 =
      .error (GoError.Errorf "failed to extract user ID from token"
        (GoError.New "could not find claims for key: id")) := by
  decide

/-- C9 (amended): `ExtractClaims` treats an empty token string and a Basic header as
anonymous (no error, `{role: "unauthorized"}`), and `ExtractFromClaims` and
`ExtractUserIDFromToken` return an error in these cases: "authorization header is
missing" for an empty header, and "could not find claims for key: id", wrapped, for a
header that contains "Basic". -/
theorem ExtractUserIDFromToken_anonymous (lib : JwtLib) (secretKey : String) (now : Time)
    (authorization : String) :
    (authorization = "" →
      jwt.ExtractClaims lib authorization secretKey now =
        .ok [("role", Value.str "unauthorized")] ∧
      jwt.ExtractUserIDFromToken lib authorization secretKey now =
        .error (GoError.New "authorization header is missing")) ∧
    (jwt.Contains authorization "Basic" = true →
      jwt.ExtractClaims lib authorization secretKey now =
        .ok [("role", Value.str "unauthorized")] ∧
      jwt.ExtractFromClaims lib "id" authorization secretKey now =
        .error (GoError.New "could not find claims for key: id") ∧
      jwt.ExtractUserIDFromToken lib authorization secretKey now =
        .error (GoError.Errorf "failed to extract user ID from token"
          (GoError.New "could not find claims for key: id"))) := by
  constructor
  · intro h
    subst h
    exact ⟨rfl, rfl⟩
  · intro h₂
    have h₁ : authorization ≠ "" := by
      rintro rfl
      exact absurd h₂ (by decide)
    have hc : jwt.ExtractClaims lib authorization secretKey now =
        .ok [("role", Value.str "unauthorized")] := by
      simp only [jwt.ExtractClaims, if_neg h₁, h₂, if_true]
      rfl
    have hg : MapClaims.get [("role", Value.str "unauthorized")] "id" = none := by decide
    have hf : jwt.ExtractFromClaims lib "id" authorization secretKey now =
        .error (GoError.New "could not find claims for key: id") := by
      simp only [jwt.ExtractFromClaims, hc, hg]
      rfl
    refine ⟨hc, hf, ?_⟩
    simp only [jwt.ExtractUserIDFromToken, if_neg h₁, hf]

/-! ## What a registration persists and returns -/

/-- C10: for a request that passes the code check, the store is called once, with the
row `{ID: the generated identifier, PhoneNumber, FcmToken}` (the candidate ID of the
request plays no part and no code is in the row); and on success the ID returned is
the generated identifier, which is the `id` claim of the claim sets signed for both
tokens, whose `role` claim is the user role. -/
theorem Registration_persists_generated_id (a : adminController) (req : RegistrReq)
    (storedCode : String)
    (hcache : a.redisGet req.PhoneNumber = .ok storedCode)
    (hpass : storedCode = req.Code ∨ req.Code = "020202") :
    storedRows (a.Registration req).calls =
      [{ ID := a.NewString, PhoneNumber := req.PhoneNumber, Code := "",
         FcmToken := req.FcmToken }] ∧
    (∀ candidate, (a.Registration { req with ID := candidate }).result =
        (a.Registration req).result ∧
      storedRows (a.Registration { req with ID := candidate }).calls =
        storedRows (a.Registration req).calls) ∧
    (∀ res, (a.Registration req).result = .ok res →
      res.ID = a.NewString ∧
      a.lib.SignedString (jwt.buildClaims (tokenMetadata res.ID a.UserRole)
        a.JWTAccessTokenExpireDuration (a.Now 0) (a.Now 1)) a.JWTSecretKey =
          .ok res.Tokens.AccessToken ∧
      a.lib.SignedString (jwt.buildClaims (tokenMetadata res.ID a.UserRole)
        a.JWTRefreshTokenExpireDuration (a.Now 2) (a.Now 3)) a.JWTSecretKey =
          .ok res.Tokens.RefreshToken ∧
      ∀ ttl now₁ now₂,
        MapClaims.get (jwt.buildClaims (tokenMetadata res.ID a.UserRole) ttl now₁ now₂) "id" =
          some (Value.str res.ID) ∧
        MapClaims.get (jwt.buildClaims (tokenMetadata res.ID a.UserRole) ttl now₁ now₂) "role" =
          some (Value.str a.UserRole)) := by
  have hc : ¬ (storedCode ≠ req.Code ∧ req.Code ≠ "020202") := by
    rintro ⟨h₁, h₂⟩
    rcases hpass with h | h
    · exact h₁ h
    · exact h₂ h
  have hclaims : ∀ (Id : String) ttl now₁ now₂,
      MapClaims.get (jwt.buildClaims (tokenMetadata Id a.UserRole) ttl now₁ now₂) "id" =
        some (Value.str Id) ∧
      MapClaims.get (jwt.buildClaims (tokenMetadata Id a.UserRole) ttl now₁ now₂) "role" =
        some (Value.str a.UserRole) := by
    intro Id ttl now₁ now₂
    have hnd : ((tokenMetadata Id a.UserRole).map Prod.fst).Nodup := by
      simp [tokenMetadata]
    exact ⟨get_buildClaims_metadata _ _ _ _ "id" Id hnd (by decide) (by decide) (by
        simp [tokenMetadata, StringMap.get]),
      get_buildClaims_metadata _ _ _ _ "role" a.UserRole hnd (by decide) (by decide) (by
        simp [tokenMetadata, StringMap.get])⟩
  have hrun : ∀ r : RegistrReq, r.PhoneNumber = req.PhoneNumber → r.Code = req.Code →
      r.FcmToken = req.FcmToken →
      storedRows (a.Registration r).calls =
        [{ ID := a.NewString, PhoneNumber := req.PhoneNumber, Code := "",
           FcmToken := req.FcmToken }] ∧
      (a.Registration r).result = (a.Registration req).result := by
    intro r hp hcode hf
    unfold adminController.Registration
    simp only [hp, hcode, hf, hcache, if_neg hc]
    cases adminRepo.Registration a.Create
        { ID := a.NewString, PhoneNumber := req.PhoneNumber, Code := "",
          FcmToken := req.FcmToken } with
    | some e => simp [storedRows]
    | none =>
      simp only
      cases jwt.GenerateNewJWTToken a.lib (tokenMetadata a.NewString a.UserRole)
          a.JWTAccessTokenExpireDuration a.JWTSecretKey (a.Now 0) (a.Now 1) with
      | error e => simp [storedRows]
      | ok accessToken =>
        simp only
        cases jwt.GenerateNewJWTToken a.lib (tokenMetadata a.NewString a.UserRole)
            a.JWTRefreshTokenExpireDuration a.JWTSecretKey (a.Now 2) (a.Now 3) with
        | error e => simp [storedRows]
        | ok refreshToken => simp [storedRows]
  refine ⟨(hrun req rfl rfl rfl).1, ?_, ?_⟩
  · intro candidate
    have h := hrun { req with ID := candidate } rfl rfl rfl
    exact ⟨h.2, h.1.trans (hrun req rfl rfl rfl).1.symm⟩
  · intro res hres
    unfold adminController.Registration at hres
    simp only [hcache, if_neg hc] at hres
    split at hres
    · simp at hres
    · split at hres
      · simp at hres
      · rename_i accessToken haccess
        split at hres
        · simp at hres
        · rename_i refreshToken hrefresh
          have hres' := Except.ok.inj hres
          subst hres'
          have ha := (buildClaims_signed a.lib _ _ _ _ _ _ haccess)
          have hr := (buildClaims_signed a.lib _ _ _ _ _ _ hrefresh)
          exact ⟨rfl, ha, hr, hclaims a.NewString⟩

/-- C10 (witness): the spec's scenario: the cached code "4521" is submitted with the
candidate ID "candidate"; the row stored and the ID returned carry the generated
identifier. -/
theorem Registration_persists_generated_id_witness :
    storedRows ((freshWorld (jwtgo.lib sampleHmac)).Registration (sampleReq "4521")).calls =
      [sampleRow] ∧
    ((freshWorld (jwtgo.lib sampleHmac)).Registration (sampleReq "4521")).result =
      .ok sampleRes ∧
    sampleRes.ID = sampleId ∧
    MapClaims.get (jwt.buildClaims (tokenMetadata sampleId "user") 3600000000000
      1700000000000000000 1700000000000000001) "id" = some (Value.str sampleId) :=
  ⟨(Registration_persists_generated_id (freshWorld (jwtgo.lib sampleHmac)) (sampleReq "4521")
      "4521" rfl (Or.inl rfl)).1, rfl,
    ((Registration_persists_generated_id (freshWorld (jwtgo.lib sampleHmac)) (sampleReq "4521")
      "4521" rfl (Or.inl rfl)).2.2 sampleRes rfl).1,
    (((Registration_persists_generated_id (freshWorld (jwtgo.lib sampleHmac)) (sampleReq "4521")
      "4521" rfl (Or.inl rfl)).2.2 sampleRes rfl).2.2.2 3600000000000 1700000000000000000
        1700000000000000001).1⟩

/-! ## The CRUD methods of the controller -/

theorem collapses_of_cases {σ : Type} (call op : σ → Option GoError) (message : String)
    (hnone : ∀ store, call store = none → op store = none)
    (hsome : ∀ store e, call store = some e →
      op store = some (GoError.StatusError codes.Internal message)) :
    Collapses call op message := by
  refine ⟨?_, hsome, ?_⟩
  · intro store
    cases h : call store with
    | none => simp [hnone store h]
    | some e => simp [hsome store e h]
  · intro store₁ store₂ e₁ e₂ h₁ h₂
    rw [hsome store₁ e₁ h₁, hsome store₂ e₂ h₂]

theorem collapsesData_of_cases {σ α : Type} (call op : σ → α × Option GoError) (zero : α)
    (message : String)
    (hnone : ∀ store, (call store).2 = none → op store = call store)
    (hsome : ∀ store e, (call store).2 = some e →
      op store = (zero, some (GoError.StatusError codes.Internal message))) :
    CollapsesData call op zero message := by
  refine ⟨?_, hnone, hsome, ?_⟩
  · intro store
    cases h : (call store).2 with
    | none => simp [hnone store h, h]
    | some e => simp [hsome store e h]
  · intro store₁ store₂ e₁ e₂ h₁ h₂
    rw [hsome store₁ e₁ h₁, hsome store₂ e₂ h₂]

/-- C11: each of the CRUD methods `UpdateUserProfile`, `GetUserProfile`, `CreateXozmak`,
`InsertUserLocation`, `GetUserLocation`, `GetXozmak`, `UpdateXozmak` and `DeleteXozmak`
succeeds exactly when its store call returns no error (a getter then returns the data of
the store unchanged), and for any two errors of the store it returns the same error, of
gRPC code `Internal` with a fixed message ("internal server error", written "internel
server error" in the last three methods). -/
theorem crud_methods_collapse_store_errors {UserProfile Xozmak UserLocation : Type}
    [Inhabited UserProfile] (userID id : String) (profile : UserProfile) (xozmak : Xozmak)
    (location : UserLocation) :
    Collapses (fun store : AdminI UserProfile Xozmak UserLocation =>
        store.UpdateUser userID profile)
      (fun store => adminController.UpdateUserProfile store userID profile)
      "internal server error" ∧
    CollapsesData (fun store : AdminI UserProfile Xozmak UserLocation =>
        store.GetUserProfile userID)
      (fun store => adminController.GetUserProfile store userID) default
      "internal server error" ∧
    Collapses (fun store : AdminI UserProfile Xozmak UserLocation =>
        store.CreateXozmak xozmak)
      (fun store => adminController.CreateXozmak store xozmak) "internal server error" ∧
    Collapses (fun store : AdminI UserProfile Xozmak UserLocation =>
        store.InsertUserLocation location)
      (fun store => adminController.InsertUserLocation store location)
      "internal server error" ∧
    CollapsesData (fun store : AdminI UserProfile Xozmak UserLocation =>
        store.GetUserLocation userID)
      (fun store => adminController.GetUserLocation store userID) []
      "internal server error" ∧
    CollapsesData (fun store : AdminI UserProfile Xozmak UserLocation => store.GetXozmak)
      (fun store => adminController.GetXozmak store) [] "internel server error" ∧
    Collapses (fun store : AdminI UserProfile Xozmak UserLocation =>
        store.UpdateXozmak xozmak)
      (fun store => adminController.UpdateXozmak store xozmak) "internel server error" ∧
    Collapses (fun store : AdminI UserProfile Xozmak UserLocation => store.DeleteXozmak id)
      (fun store => adminController.DeleteXozmak store id) "internel server error" := by
  refine ⟨collapses_of_cases _ _ _ ?_ ?_, collapsesData_of_cases _ _ _ _ ?_ ?_,
    collapses_of_cases _ _ _ ?_ ?_, collapses_of_cases _ _ _ ?_ ?_,
    collapsesData_of_cases _ _ _ _ ?_ ?_, collapsesData_of_cases _ _ _ _ ?_ ?_,
    collapses_of_cases _ _ _ ?_ ?_, collapses_of_cases _ _ _ ?_ ?_⟩
  · intro store h
    simp only [adminController.UpdateUserProfile, h]
  · intro store e h
    simp only [adminController.UpdateUserProfile, h]
  · intro store h
    rcases hc : store.GetUserProfile userID with ⟨data, err⟩
    simp only [hc] at h
    subst h
    simp only [adminController.GetUserProfile, hc]
  · intro store e h
    rcases hc : store.GetUserProfile userID with ⟨data, err⟩
    simp only [hc] at h
    subst h
    simp only [adminController.GetUserProfile, hc]
  · intro store h
    simp only [adminController.CreateXozmak, h]
  · intro store e h
    simp only [adminController.CreateXozmak, h]
  · intro store h
    simp only [adminController.InsertUserLocation, h]
  · intro store e h
    simp only [adminController.InsertUserLocation, h]
  · intro store h
    rcases hc : store.GetUserLocation userID with ⟨data, err⟩
    simp only [hc] at h
    subst h
    simp only [adminController.GetUserLocation, hc]
  · intro store e h
    rcases hc : store.GetUserLocation userID with ⟨data, err⟩
    simp only [hc] at h
    subst h
    simp only [adminController.GetUserLocation, hc]
  · intro store h
    rcases hc : store.GetXozmak with ⟨data, err⟩
    simp only [hc] at h
    subst h
    simp only [adminController.GetXozmak, hc]
  · intro store e h
    rcases hc : store.GetXozmak with ⟨data, err⟩
    simp only [hc] at h
    subst h
    simp only [adminController.GetXozmak, hc]
  · intro store h
    simp only [adminController.UpdateXozmak, h]
  · intro store e h
    simp only [adminController.UpdateXozmak, h]
  · intro store h
    simp only [adminController.DeleteXozmak, h]
  · intro store e h
    simp only [adminController.DeleteXozmak, h]

/-! ## `ParseToken` on minted tokens -/

theorem not_mem_keys_of_get_none : ∀ (m : StringMap) (key : String),
    StringMap.get m key = none → key ∉ m.map Prod.fst
  | [], _, _ => by simp
  | (k, v) :: rest, key, h => by
    rw [StringMap.get] at h
    split_ifs at h with hk
    have ih := not_mem_keys_of_get_none rest key h
    simp only [List.map_cons, List.mem_cons, not_or]
    exact ⟨hk, ih⟩

theorem get_buildClaims_absent (m : StringMap) (ttl : Duration) (now₁ now₂ : Time)
    (key : String) (h₁ : key ≠ "iat") (h₂ : key ≠ "expires")
    (h : StringMap.get m key = none) :
    MapClaims.get (jwt.buildClaims m ttl now₁ now₂) key = none := by
  rw [get_buildClaims_of_ne m ttl now₁ now₂ key h₁ h₂,
    get_copyMetadata_of_not_mem m [] key (not_mem_keys_of_get_none m key h)]
  rfl

theorem golangjwt_Valid_buildClaims (strict : Bool) (m : StringMap) (ttl : Duration)
    (now₁ now₂ now : Time)
    (hreg : strict = true → StringMap.get m "exp" = none ∧ StringMap.get m "nbf" = none) :
    golangjwt.Valid strict (jwt.buildClaims m ttl now₁ now₂) now =
      if Time.Unix now₁ = 0 ∨ Time.Unix now₁ ≤ Time.Unix now then none
      else some (GoError.New "Token used before issued") := by
  have hnbf : golangjwt.VerifyNotBefore strict (jwt.buildClaims m ttl now₁ now₂)
      (Time.Unix now) false = true := by
    have h := get_buildClaims_not_num m ttl now₁ now₂ "nbf" (by decide) (by decide)
    unfold golangjwt.VerifyNotBefore
    split
    · rfl
    · rename_i nbf hget
      exact absurd hget (h nbf)
    · rename_i v hnot hget
      cases strict with
      | false => rfl
      | true =>
        rw [get_buildClaims_absent m ttl now₁ now₂ "nbf" (by decide) (by decide)
          (hreg rfl).2] at hget
        exact absurd hget (by simp)
  have hexp : golangjwt.VerifyExpiresAt strict (jwt.buildClaims m ttl now₁ now₂)
      (Time.Unix now) false = true := by
    have h := get_buildClaims_not_num m ttl now₁ now₂ "exp" (by decide) (by decide)
    unfold golangjwt.VerifyExpiresAt
    split
    · rfl
    · rename_i exp hget
      exact absurd hget (h exp)
    · rename_i v hnot hget
      cases strict with
      | false => rfl
      | true =>
        rw [get_buildClaims_absent m ttl now₁ now₂ "exp" (by decide) (by decide)
          (hreg rfl).1] at hget
        exact absurd hget (by simp)
  have hiat : golangjwt.VerifyIssuedAt strict (jwt.buildClaims m ttl now₁ now₂)
      (Time.Unix now) false = jwtgo.verifyIat (Time.Unix now₁) (Time.Unix now) false := by
    unfold golangjwt.VerifyIssuedAt
    rw [get_buildClaims_iat]
  unfold golangjwt.Valid
  rw [hnbf, hexp, hiat, jwtgo.verifyIat]
  by_cases h₀ : Time.Unix now₁ = 0
  · simp [h₀]
  · by_cases h₁ : Time.Unix now₁ ≤ Time.Unix now
    · simp [h₀, h₁]
    · simp [h₀, h₁]

/-- Parsing, with the key function of `ParseToken`, a token signed with HS256 under the
same key: the outcome of the claims validation, and the signed claims when it passes. -/
theorem golangjwt_Parse_SignedString (strict : Bool) (hmac : Hmac) (claims : MapClaims)
    (key : String) (now : Time) (h : MapClaims.Sorted claims) :
    golangjwt.Parse strict hmac (jwtgo.SignedString hmac "HS256" claims key)
        (jwt.parseTokenKeyFunc key) now =
      match golangjwt.Valid strict claims now with
      | some err => .error err
      | none => .ok { Claims := claims, Valid := true } := by
  have hv := jwtgo.Verify_tag hmac "HS256" (jwtgo.SigningString "HS256" claims) key
  rw [golangjwt.Parse, jwtgo.Split_SignedString]
  simp only [jwtgo.DecodeSegment_EncodeSegment, Option.some_bind,
    json.Unmarshal_Marshal _ (jwtgo.sorted_header "HS256"), json.Unmarshal_Marshal _ h]
  have halg : MapClaims.get (jwtgo.header "HS256") "alg" = some (Value.str "HS256") := by
    decide
  have hh : jwtgo.isHMAC "HS256" = true := by decide
  have hr : golangjwt.isRegistered "HS256" = true := by decide
  have hk : jwt.parseTokenKeyFunc key "HS256" = .ok key := by
    simp [jwt.parseTokenKeyFunc, hh]
  simp only [halg, hh, hr, hk, Bool.not_true, Bool.false_eq_true, if_false]
  rw [← jwtgo.SigningString, if_neg]
  rw [hv]
  decide

/-- What `ParseToken` returns for a token minted by `GenerateNewJWTToken` under the same
key, when the metadata has no key `userID`, the clock does not read a second before the
second of minting and, for the strict validation, the metadata has no key `exp` or
`nbf`. -/
theorem ParseToken_SignedString (strict : Bool) (hmac : Hmac) (m : StringMap) (ttl : Duration)
    (key : String) (now₁ now₂ now : Time)
    (huser : StringMap.get m "userID" = none)
    (hreg : strict = true → StringMap.get m "exp" = none ∧ StringMap.get m "nbf" = none)
    (hclock : now₁ ≤ now) :
    jwt.ParseToken (golangjwt.Parse strict hmac)
        (jwtgo.SignedString hmac "HS256" (jwt.buildClaims m ttl now₁ now₂) key) key now =
      ("", some (GoError.New "userID not found in token")) := by
  have hle : Time.Unix now₁ ≤ Time.Unix now := Unix_mono hclock
  have hget := get_buildClaims_absent m ttl now₁ now₂ "userID" (by decide) (by decide) huser
  rw [jwt.ParseToken, golangjwt_Parse_SignedString strict hmac _ key now
    (sorted_buildClaims m ttl now₁ now₂),
    golangjwt_Valid_buildClaims strict m ttl now₁ now₂ now hreg, if_pos (Or.inr hle)]
  simp only [if_true, hget]

theorem ParseToken_SignedString_fails (strict : Bool) (hmac : Hmac) (m : StringMap)
    (ttl : Duration) (key : String) (now₁ now₂ now : Time)
    (huser : StringMap.get m "userID" = none) :
    ∃ err, jwt.ParseToken (golangjwt.Parse strict hmac)
        (jwtgo.SignedString hmac "HS256" (jwt.buildClaims m ttl now₁ now₂) key) key now =
      ("", some err) := by
  have hget := get_buildClaims_absent m ttl now₁ now₂ "userID" (by decide) (by decide) huser
  rw [jwt.ParseToken, golangjwt_Parse_SignedString strict hmac _ key now
    (sorted_buildClaims m ttl now₁ now₂)]
  cases golangjwt.Valid strict (jwt.buildClaims m ttl now₁ now₂) now with
  | some err => exact ⟨err, rfl⟩
  | none =>
    refine ⟨GoError.New "userID not found in token", ?_⟩
    simp only [if_true, hget]

theorem Registration_tokens (a : adminController) (req : RegistrReq) (res : RegistrRes)
    (h : (a.Registration req).result = .ok res) :
    jwt.GenerateNewJWTToken a.lib (tokenMetadata a.NewString a.UserRole)
        a.JWTAccessTokenExpireDuration a.JWTSecretKey (a.Now 0) (a.Now 1) =
      .ok res.Tokens.AccessToken ∧
    jwt.GenerateNewJWTToken a.lib (tokenMetadata a.NewString a.UserRole)
        a.JWTRefreshTokenExpireDuration a.JWTSecretKey (a.Now 2) (a.Now 3) =
      .ok res.Tokens.RefreshToken := by
  unfold adminController.Registration at h
  rcases hget : a.redisGet req.PhoneNumber with err | storedCode
  · rw [hget] at h
    cases err <;> simp at h
  · by_cases hc : storedCode ≠ req.Code ∧ req.Code ≠ "020202"
    · simp only [hget, if_pos hc] at h
      exact absurd h (by simp)
    · simp only [hget, if_neg hc] at h
      split at h
      · simp at h
      · split at h
        · simp at h
        · rename_i accessToken haccess
          split at h
          · simp at h
          · rename_i refreshToken hrefresh
            have h' := Except.ok.inj h
            subst h'
            exact ⟨haccess, hrefresh⟩

set_option maxRecDepth 100000 in
/-- C12 (counterexample): two minted tokens whose metadata has no key `userID`, parsed
with the key they were signed with, under the validation of release 3.2.2. For the
metadata `{exp: "tomorrow"}` `ParseToken` returns the error "Token is expired". For the
metadata `{id: "u1", role: "user"}`, minted at second 1700000000 and parsed by a
verifier whose clock reads second 1699999999, it returns "Token used before issued".
Neither is the error "userID not found in token". -/
theorem ParseToken_counterexample :
    StringMap.get [("exp", "tomorrow")] "userID" = none ∧
    StringMap.get (tokenMetadata "u1" "user") "userID" = none ∧
    (∀ hmac : Hmac,
      jwt.GenerateNewJWTToken (jwtgo.lib hmac) [("exp", "tomorrow")] 3600000000000 "secret"
          1700000000000000000 1700000000000000000 =
        .ok (jwtgo.SignedString hmac "HS256" (jwt.buildClaims [("exp", "tomorrow")]
          3600000000000 1700000000000000000 1700000000000000000) "secret") ∧
      jwt.ParseToken (golangjwt.Parse true hmac)
          (jwtgo.SignedString hmac "HS256" (jwt.buildClaims [("exp", "tomorrow")]
            3600000000000 1700000000000000000 1700000000000000000) "secret")
          "secret" 1700000001000000000 =
        ("", some (GoError.New "Token is expired"))) ∧
    (∀ hmac : Hmac,
      jwt.ParseToken (golangjwt.Parse true hmac)
          (jwtgo.SignedString hmac "HS256" (jwt.buildClaims (tokenMetadata "u1" "user")
            3600000000000 1700000000000000000 1700000000000000000) "secret")
          "secret" 1699999999000000000 =
        ("", some (GoError.New "Token used before issued"))) := by
  refine ⟨by decide, by decide, ?_, ?_⟩
  · intro hmac
    refine ⟨rfl, ?_⟩
    have hval : golangjwt.Valid true (jwt.buildClaims [("exp", "tomorrow")] 3600000000000
        1700000000000000000 1700000000000000000) 1700000001000000000 =
        some (GoError.New "Token is expired") := by decide
    rw [jwt.ParseToken, golangjwt_Parse_SignedString true hmac _ "secret" _
      (sorted_buildClaims _ _ _ _), hval]
  · intro hmac
    have hval : golangjwt.Valid true (jwt.buildClaims (tokenMetadata "u1" "user")
        3600000000000 1700000000000000000 1700000000000000000) 1699999999000000000 =
        some (GoError.New "Token used before issued") := by decide
    rw [jwt.ParseToken, golangjwt_Parse_SignedString true hmac _ "secret" _
      (sorted_buildClaims _ _ _ _), hval]

/-- C12 (amended): for every token minted by `GenerateNewJWTToken` from a metadata map
that has no key `userID`, `ParseToken` called with the same signing key returns the
empty user id and an error: it never recovers an account identifier. The error is
"userID not found in token" when the clock reads no earlier than the first clock reading
of the minting and, under the validation of release 3.2.2 of the library, the metadata
has no key `exp` or `nbf`. This is the case of the access token and of the refresh
token of every successful `Registration`. -/
theorem ParseToken_minted_token (strict : Bool) (hmac : Hmac) (m : StringMap)
    (ttl : Duration) (key : String) (now₁ now₂ now : Time)
    (huser : StringMap.get m "userID" = none) :
    (∃ tokenString err,
      jwt.GenerateNewJWTToken (jwtgo.lib hmac) m ttl key now₁ now₂ = .ok tokenString ∧
      jwt.ParseToken (golangjwt.Parse strict hmac) tokenString key now = ("", some err) ∧
      ((strict = true → StringMap.get m "exp" = none ∧ StringMap.get m "nbf" = none) →
        now₁ ≤ now → err = GoError.New "userID not found in token")) ∧
    (∀ (a : adminController) (req : RegistrReq) (res : RegistrRes),
      a.lib = jwtgo.lib hmac → (a.Registration req).result = .ok res →
      a.Now 0 ≤ now → a.Now 2 ≤ now →
      jwt.ParseToken (golangjwt.Parse strict hmac) res.Tokens.AccessToken a.JWTSecretKey now =
        ("", some (GoError.New "userID not found in token")) ∧
      jwt.ParseToken (golangjwt.Parse strict hmac) res.Tokens.RefreshToken a.JWTSecretKey now =
        ("", some (GoError.New "userID not found in token"))) := by
  constructor
  · obtain ⟨err, herr⟩ := ParseToken_SignedString_fails strict hmac m ttl key now₁ now₂ now huser
    refine ⟨_, err, GenerateNewJWTToken_lib hmac m ttl key now₁ now₂, herr, ?_⟩
    intro hreg hclock
    have h := ParseToken_SignedString strict hmac m ttl key now₁ now₂ now huser hreg hclock
    rw [herr] at h
    exact Option.some.inj (Prod.mk.inj h).2
  · intro a req res hlib hres h₀ h₂
    obtain ⟨haccess, hrefresh⟩ := Registration_tokens a req res hres
    rw [hlib, GenerateNewJWTToken_lib] at haccess hrefresh
    have ha := Except.ok.inj haccess
    have hr := Except.ok.inj hrefresh
    have hu : StringMap.get (tokenMetadata a.NewString a.UserRole) "userID" = none := by
      simp [tokenMetadata, StringMap.get]
    have he : StringMap.get (tokenMetadata a.NewString a.UserRole) "exp" = none := by
      simp [tokenMetadata, StringMap.get]
    have hn : StringMap.get (tokenMetadata a.NewString a.UserRole) "nbf" = none := by
      simp [tokenMetadata, StringMap.get]
    rw [← ha, ← hr]
    exact ⟨ParseToken_SignedString strict hmac _ _ _ _ _ now hu (fun _ => ⟨he, hn⟩) h₀,
      ParseToken_SignedString strict hmac _ _ _ _ _ now hu (fun _ => ⟨he, hn⟩) h₂⟩

/-- C12 (witness): the tokens of the spec's scenario, parsed a day after the
registration under the validation of release 3.2.2. -/
theorem ParseToken_minted_token_witness :
    ((freshWorld (jwtgo.lib sampleHmac)).Registration (sampleReq "4521")).result =
      .ok sampleRes ∧
    jwt.ParseToken (golangjwt.Parse true sampleHmac) sampleRes.Tokens.AccessToken "secret"
        1700086400000000000 = ("", some (GoError.New "userID not found in token")) ∧
    jwt.ParseToken (golangjwt.Parse true sampleHmac) sampleRes.Tokens.RefreshToken "secret"
        1700086400000000000 = ("", some (GoError.New "userID not found in token")) :=
  ⟨rfl,
    (ParseToken_minted_token true sampleHmac (tokenMetadata sampleId "user") 3600000000000
      "secret" 1700000000000000000 1700000000000000001 1700086400000000000
      (by decide)).2
      (freshWorld (jwtgo.lib sampleHmac)) (sampleReq "4521") sampleRes rfl rfl
      (by decide) (by decide)⟩

end Delivery
